import Mathlib

/-!
Verification development for the mongo-dynamic-indexer index-recommendation
engine.  The definitions below are a shallow embedding of the JavaScript
sources (`lib/query_profile.js`, `lib/query_set.js`, `lib/mongo_index.js`,
`lib/index_set.js`, `lib/collection_statistics.js`):

* a Mongo index object is modelled as an ordered association list of
  field-name/value pairs (JS objects preserve string-key insertion order),
  together with an `oid` tag standing for JS object identity (reference
  equality `===`), the owning collection name and the index name;
* JS numbers appearing in the code are integer directions (`1`, `-1`) and
  statistic counts, modelled as `Int`, and reduction ratios, modelled as `Rat`;
* fallible code paths (statistics lookups that would dereference `undefined`
  and throw a `TypeError`) are modelled with `Except String`;
* the unbounded `while` loops of `reduceIndexes` are modelled with an explicit
  fuel parameter, returning `none` when the fuel is exhausted (the JS loop has
  no fuel; every theorem about the loop is conditioned on normal termination,
  i.e. on a pass that reports no change).
-/

/-- The value stored under a field name in a Mongo index object: a numeric sort
direction (`1` / `-1`) or the string `'hashed'`. -/
inductive IndexEntryVal where
  | num (n : Int)
  | hashed
deriving DecidableEq, Repr

/-- JS loose equality (`==` / the negation of `!=`) restricted to the values
that actually occur in index objects.  A number is never loosely equal to the
string `'hashed'` (`Number('hashed')` is `NaN`), so on this domain loose
equality coincides with structural equality. -/
def jsValEq : IndexEntryVal → IndexEntryVal → Bool
  | IndexEntryVal.num a, IndexEntryVal.num b => a == b
  | IndexEntryVal.hashed, IndexEntryVal.hashed => true
  | _, _ => false

/-- Shallow embedding of the `MongoIndex` class (`lib/mongo_index.js`).
`keys` models the own enumerable properties of the JS object, in insertion
order; `oid` models JS reference identity (two `MongoIndex` objects are the
same object iff they have the same `oid`); `collectionName` and `indexName`
model the symbol-keyed `_collectionName` / `_indexName` slots.  The
sha256-based `generateIndexName` is not modelled (no claim inspects the hash
itself); `indexName` carries whatever name the constructor was given. -/
structure MongoIndex where
  oid : Nat
  keys : List (String × IndexEntryVal)
  collectionName : String
  indexName : String
deriving DecidableEq, Repr

/-- The entry-by-entry comparison loop shared by `isSameAs` and
`isIndexPrefixOf`: walks the first list and compares keys with `!=` and values
with `!=` (loose equality). -/
def entriesMatch : List (String × IndexEntryVal) → List (String × IndexEntryVal) → Bool
  | [], _ => true
  | _ :: _, [] => false
  | (k, v) :: r, (k', v') :: r' => k == k' && jsValEq v v' && entriesMatch r r'

/-- `MongoIndex.isSameAs` (`lib/mongo_index.js`): same number of keys, and
pointwise equal keys and values. -/
def isSameAs (a b : MongoIndex) : Bool :=
  a.keys.length == b.keys.length && entriesMatch a.keys b.keys

/-- The key-list form of `isIndexPrefixOf`: strictly fewer keys, and the keys
of the first list pointwise equal to the leading keys of the second. -/
def keysPrefixOf (xs ys : List (String × IndexEntryVal)) : Bool :=
  decide (xs.length < ys.length) && entriesMatch xs ys

/-- `MongoIndex.isIndexPrefixOf` (`lib/mongo_index.js`): this index has
strictly fewer fields than the other and agrees with its leading fields.
An index is not a prefix of itself. -/
def isIndexPrefixOf (a b : MongoIndex) : Bool :=
  keysPrefixOf a.keys b.keys

/-- `underscore.uniq` with no iteratee: keep the first occurrence of each
element. -/
def usUniq {α : Type} [DecidableEq α] : List α → List α :=
  go []
where
  go (seen : List α) : List α → List α
    | [] => []
    | x :: r => if x ∈ seen then go seen r else x :: go (x :: seen) r

/-- `underscore.difference(a, b)`: the elements of `a` not present in `b`,
in order, without deduplication. -/
def usDifference {α : Type} [DecidableEq α] (a b : List α) : List α :=
  a.filter (fun x => decide (x ∉ b))

/-- The comparison used by `underscore.sortBy`: underscore sorts by the pair
(criterion, original position), so the result is the unique stable sort. -/
def sortByRel {α : Type} (key : α → Int) (a b : Nat × α) : Prop :=
  key a.2 < key b.2 ∨ (key a.2 = key b.2 ∧ a.1 ≤ b.1)

instance {α : Type} (key : α → Int) : DecidableRel (sortByRel key) := by
  intro a b
  unfold sortByRel
  infer_instance

instance {α : Type} (key : α → Int) : IsTotal (Nat × α) (sortByRel key) := by
  constructor
  intro a b
  unfold sortByRel
  omega

instance {α : Type} (key : α → Int) : IsTrans (Nat × α) (sortByRel key) := by
  constructor
  intro a b c
  unfold sortByRel
  omega

/-- `underscore.sortBy(list, iteratee)` with a numeric iteratee: a stable sort
by the criterion (underscore breaks ties by original position, so any
comparison sort produces this unique result; we use insertion sort). -/
def usSortBy {α : Type} (key : α → Int) (l : List α) : List α :=
  (l.enum.insertionSort (sortByRel key)).map Prod.snd

/-- `underscore.max(list, iteratee)`: the element with the strictly greatest
criterion seen so far, i.e. the first element attaining the maximum.  Returns
`none` on the empty list (underscore returns `-Infinity` there; callers in the
source never reach that case). -/
def usMaxBy {α : Type} (key : α → Rat) (l : List α) : Option α :=
  l.foldl (fun acc x =>
    match acc with
    | none => some x
    | some b => if key b < key x then some x else acc) none

/-- JS object property assignment `o[k] = v` on a plain object modelled as an
ordered association list: if the key exists its value is updated in place
(keeping its position); otherwise the pair is appended. -/
def objSet (o : List (String × Int)) (k : String) (v : Int) : List (String × Int) :=
  if o.any (fun p => p.1 == k) then
    o.map (fun p => if p.1 == k then (k, v) else p)
  else
    o ++ [(k, v)]

example : usUniq [3, 1, 3, 2, 1] = [3, 1, 2] := by decide
example : usDifference ["a", "b", "c"] ["b"] = ["a", "c"] := by decide
example : usSortBy (fun n => n) [(3 : Int), 1, 2] = [1, 2, 3] := by decide
example : usMaxBy (fun n => n) [(1 : Rat), 3, 3, 2] = some 3 := by decide
example : objSet [("a", 1), ("b", 2)] "a" 5 = [("a", 5), ("b", 2)] := by decide
example : objSet [("a", 1)] "c" 7 = [("a", 1), ("c", 7)] := by decide
example : isIndexPrefixOf ⟨0, [("x", IndexEntryVal.num 1)], "c", ""⟩
    ⟨1, [("x", IndexEntryVal.num 1), ("y", IndexEntryVal.num 1)], "c", ""⟩ = true := by decide

/-- Field mode from the sampler: `'normal'`, or `'hash'` when the longest
observed value exceeds `longestIndexableValue`. -/
inductive FieldMode where
  | normal
  | hash
deriving DecidableEq, Repr

/-- Per-field statistics produced by the sampler (`FieldStatistics` in the
spec): distinct-value count, longest stringified value, and the array
ancestors of the field's path. -/
structure FieldStatistics where
  mode : FieldMode
  cardinality : Int
  longest : Int
  arrayPrefixes : List String
deriving DecidableEq, Repr

/-- The `_keyStatistics` map of a `QueryProfile`: field path → statistics,
modelled as an ordered association list (a JS plain object). -/
abbrev KeyStatistics : Type := List (String × FieldStatistics)

/-- JS property read `stats[f]`: `none` models `undefined`. -/
def statFind (st : KeyStatistics) (f : String) : Option FieldStatistics :=
  (List.find? (fun p => p.1 == f) st).map Prod.snd

/-- Total variant of `statFind` used inside the guarded core of
`optimizedIndexes`; the guard (`okStatistics`) ensures the default is never
observable through `optimizedIndexes` itself. -/
def statD (st : KeyStatistics) (f : String) : FieldStatistics :=
  (statFind st f).getD ⟨FieldMode.normal, 0, 0, []⟩

/-- Shallow embedding of a `QueryProfile`'s query-shape data
(`lib/query_profile.js`): namespace `"db.collection"`, exact-match fields,
ordered sort object (field → numeric direction), and range fields.
(`namespace` is a Lean keyword, hence `nspace`.) -/
structure QueryProfile where
  nspace : String
  exact : List String
  sort : List (String × Int)
  range : List String
deriving DecidableEq, Repr

/-- `QueryProfile.collectionName`: the namespace after the first `'.'`
(`substr(indexOf(".") + 1)`; when there is no dot, `indexOf` is `-1` and the
whole string is returned). -/
def collectionNameOf (ns : String) : String :=
  match dropThroughDot ns.data with
  | some r => String.mk r
  | none => ns
where
  dropThroughDot : List Char → Option (List Char)
    | [] => none
    | '.' :: r => some r
    | _ :: r => dropThroughDot r

/-- `optimizedIndexes` step 1a (`query_profile.js:168`): the profile's exact
fields stably sorted by descending cardinality (the iteratee is
`-cardinality`).  This also models the mutation `self.exact = …`. -/
def sortedExactFields (st : KeyStatistics) (prof : QueryProfile) : List String :=
  usSortBy (fun f => -(statD st f).cardinality) prof.exact

/-- `optimizedIndexes` step 1b (`query_profile.js:169`): range fields stably
sorted by ascending cardinality. -/
def sortedRangeFields (st : KeyStatistics) (prof : QueryProfile) : List String :=
  usSortBy (fun f => (statD st f).cardinality) prof.range

/-- `optimizedIndexes` step 2a (`query_profile.js:177`): exact fields whose
cardinality meets `minimumCardinality`. -/
def minCardExactFields (minC : Int) (st : KeyStatistics) (prof : QueryProfile) : List String :=
  (sortedExactFields st prof).filter (fun f => minC ≤ (statD st f).cardinality)

/-- `optimizedIndexes` step 2b (`query_profile.js:178`). -/
def minCardRangeFields (minC : Int) (st : KeyStatistics) (prof : QueryProfile) : List String :=
  (sortedRangeFields st prof).filter (fun f => minC ≤ (statD st f).cardinality)

/-- `optimizedIndexes` step 3 (`query_profile.js:182`): when the cardinality
filter leaves no coverage at all (counting the not-yet-filtered sort keys),
revert to the unfiltered (but sorted) field lists. -/
def cardRevert (minC : Int) (st : KeyStatistics) (prof : QueryProfile) : Bool :=
  (minCardExactFields minC st prof).length + prof.sort.length
    + (minCardRangeFields minC st prof).length == 0

/-- The exact fields surviving the cardinality filter (or all of them after a
revert). -/
def keptExactFields (minC : Int) (st : KeyStatistics) (prof : QueryProfile) : List String :=
  if cardRevert minC st prof then sortedExactFields st prof
  else minCardExactFields minC st prof

/-- The range fields surviving the cardinality filter (or all of them after a
revert). -/
def keptRangeFields (minC : Int) (st : KeyStatistics) (prof : QueryProfile) : List String :=
  if cardRevert minC st prof then sortedRangeFields st prof
  else minCardRangeFields minC st prof

/-- The `fields` getter (`query_profile.js:101`):
`uniq(exact ++ (sortKeys ++ range))`, computed on the already-sorted lists
(the getter reads the mutated `this.exact` / `this.range`). -/
def profileFields (st : KeyStatistics) (prof : QueryProfile) : List String :=
  usUniq (sortedExactFields st prof ++ (prof.sort.map Prod.fst ++ sortedRangeFields st prof))

/-- `optimizedIndexes` step 4a (`query_profile.js:190`): fields whose mode is
not `'normal'` cannot appear in a compound index. -/
def unIndexableFields (st : KeyStatistics) (prof : QueryProfile) : List String :=
  (profileFields st prof).filter (fun f => decide ((statD st f).mode ≠ FieldMode.normal))

/-- Exact fields after removing unindexable (hash-mode) fields
(`query_profile.js:191`). -/
def exactAfterHash (minC : Int) (st : KeyStatistics) (prof : QueryProfile) : List String :=
  (keptExactFields minC st prof).filter (fun f => decide (f ∉ unIndexableFields st prof))

/-- Sort object after removing unindexable keys (`query_profile.js:192`,
`underscore.object(filter(pairs(sort), …))`). -/
def sortAfterHash (st : KeyStatistics) (prof : QueryProfile) : List (String × Int) :=
  prof.sort.filter (fun p => decide (p.1 ∉ unIndexableFields st prof))

/-- Range fields after removing unindexable fields (`query_profile.js:193`). -/
def rangeAfterHash (minC : Int) (st : KeyStatistics) (prof : QueryProfile) : List String :=
  (keptRangeFields minC st prof).filter (fun f => decide (f ∉ unIndexableFields st prof))

/-- `optimizedIndexes` step 5 (`query_profile.js:197`): the union of the
`arrayPrefixes` of all remaining fields, in first-occurrence order
(`uniq(flatten(map(exact ++ (range ++ sortKeys), …)))`). -/
def arrayPrefixList (minC : Int) (st : KeyStatistics) (prof : QueryProfile) : List String :=
  usUniq ((exactAfterHash minC st prof
      ++ (rangeAfterHash minC st prof ++ (sortAfterHash st prof).map Prod.fst)).flatMap
    (fun f => (statD st f).arrayPrefixes))

/-- `query_profile.js:204`: with fewer than two distinct array ancestors the
split is skipped (`arrayPrefixes = [null]`); otherwise one branch per array
ancestor. -/
def branchList (minC : Int) (st : KeyStatistics) (prof : QueryProfile) : List (Option String) :=
  if (arrayPrefixList minC st prof).length < 2 then [none]
  else (arrayPrefixList minC st prof).map some

/-- The body of the per-branch loop (`query_profile.js:211-253`), producing the
index object for one branch.  For a non-null branch the source filters each
field list by `arrayPrefixes.length == 0 || arrayPrefixes.indexOf(p) == -1`
(note: this *keeps* fields that do **not** mention the branch's array
ancestor).  `underscore.filter` applied to the sort *object* iterates its
values — the numeric directions — so the statistics lookup is keyed by the
direction's decimal string, and the result is an array whose numeric keys
`"0"`, `"1"`, … feed the subsequent `mapObject`; this is modelled verbatim. -/
def branchIndexObj (minC : Int) (st : KeyStatistics) (prof : QueryProfile)
    (ap : Option String) : List (String × Int) :=
  let rExact := match ap with
    | none => exactAfterHash minC st prof
    | some p => (exactAfterHash minC st prof).filter
        (fun f => (statD st f).arrayPrefixes.isEmpty || !((statD st f).arrayPrefixes.contains p))
  let rSortEntries := match ap with
    | none =>
        let negate : Int := match sortAfterHash st prof with
          | [] => 1
          | (_, d) :: _ => d
        (sortAfterHash st prof).map (fun (p : String × Int) => (p.1, p.2 * negate))
    | some p =>
        let dirs := ((sortAfterHash st prof).map Prod.snd).filter
          (fun d => (statD st (toString d)).arrayPrefixes.isEmpty
            || !((statD st (toString d)).arrayPrefixes.contains p))
        let negate : Int := match dirs with
          | [] => 1
          | d :: _ => d
        dirs.enum.map (fun (p : Nat × Int) => (toString p.1, p.2 * negate))
  let rRange := match ap with
    | none => rangeAfterHash minC st prof
    | some p => (rangeAfterHash minC st prof).filter
        (fun f => (statD st f).arrayPrefixes.isEmpty || !((statD st f).arrayPrefixes.contains p))
  let o1 := rExact.foldl (fun o f => objSet o f 1) []
  let o2 := rSortEntries.foldl (fun o p => objSet o p.1 p.2) o1
  rRange.foldl (fun o f => objSet o f 1) o2

/-- The compound indexes pushed by the per-branch loop: one `MongoIndex` per
branch whose index object is non-empty (`query_profile.js:249-252`). -/
def optimizedCompounds (minC : Int) (st : KeyStatistics) (prof : QueryProfile) : List MongoIndex :=
  (branchList minC st prof).filterMap (fun ap =>
    let obj := branchIndexObj minC st prof ap
    if obj.isEmpty then none
    else some ⟨0, obj.map (fun (p : String × Int) => (p.1, IndexEntryVal.num p.2)),
      collectionNameOf prof.nspace, ""⟩)

/-- The separate single-field hashed indexes appended for unindexable fields
(`query_profile.js:257-260`). -/
def hashedSingleIndexes (st : KeyStatistics) (prof : QueryProfile) : List MongoIndex :=
  (unIndexableFields st prof).map (fun f =>
    ⟨0, [(f, IndexEntryVal.hashed)], collectionNameOf prof.nspace, ""⟩)

/-- Whether every statistics lookup performed by `optimizedIndexes`
dereferences a defined record.  The JS getter throws a `TypeError` at the
first lookup that yields `undefined`; this predicate collects exactly those
lookups: every profile field, and — only when the parallel-array split runs
with a non-empty surviving sort — the lookups keyed by the sort directions'
string forms (`query_profile.js:221`, the C10 bug). -/
def okStatistics (minC : Int) (st : KeyStatistics) (prof : QueryProfile) : Bool :=
  (profileFields st prof).all (fun f => (statFind st f).isSome)
  && (decide ((arrayPrefixList minC st prof).length < 2)
      || (sortAfterHash st prof).all (fun p => (statFind st (toString p.2)).isSome))

/-- `QueryProfile.optimizedIndexes` (`query_profile.js:155-264`): the compound
index(es) from the parallel-array branch loop followed by the single-field
hashed indexes, or a thrown `TypeError` when a statistics lookup dereferences
`undefined`.  (The JS throws at the first failing lookup mid-loop; hoisting
the failure check to the front does not change the result: the same inputs
fail, and on non-failing inputs the same value is produced.) -/
def optimizedIndexes (minC : Int) (st : KeyStatistics) (prof : QueryProfile) :
    Except String (List MongoIndex) :=
  if okStatistics minC st prof then
    Except.ok (optimizedCompounds minC st prof ++ hashedSingleIndexes st prof)
  else
    Except.error "TypeError: Cannot read property of undefined"

/-- A value inside a Mongo query object, as the decomposer distinguishes them:
primitives (strings, numbers, booleans), `Date` / `ObjectID` instances, nested
plain objects, and arrays. -/
inductive MQVal where
  | str (s : String)
  | intg (n : Int)
  | boolean (b : Bool)
  | date
  | objectId
  | obj (fields : List (String × MQVal))
  | arr (elems : List MQVal)

/-- One subprofile accumulated by `analyzeQuery` (`query_profile.js:659`):
exact-match field paths and range field paths.  (The JS record also carries a
`sort` object, but it is always empty during analysis: `mergeQueryProfiles`
always emits `sort: \x7b\x7d`; the final sort is attached afterwards.) -/
structure SubQuery where
  exact : List String
  range : List String
deriving DecidableEq, Repr

/-- `mergeQueryProfiles` (`query_profile.js:626`): concatenate exact and range
field lists. -/
def mergeQueryProfiles (one two : SubQuery) : SubQuery :=
  ⟨one.exact ++ two.exact, one.range ++ two.range⟩

/-- `mergeSubQueries` (`query_profile.js:637`): the cartesian product of the
two subprofile lists, outer loop over the current list. -/
def mergeSubQueries (cur new : List SubQuery) : List SubQuery :=
  cur.flatMap (fun a => new.map (mergeQueryProfiles a))

/-- `trimPeriods` (`query_profile.js:653`): strip at most one leading and one
trailing period (the regexes `^\.` and `\.$` each match once). -/
def trimPeriods (s : String) : String :=
  let l₁ := match s.data with
    | '.' :: r => r
    | l => l
  String.mk (if l₁.getLast? == some '.' then l₁.dropLast else l₁)

/-- The recognized range operators (`query_profile.js:692`). -/
def rangeOpNames : List String :=
  ["$lt", "$lte", "$gt", "$gte", "$in", "$nin", "$neq", "$ne", "$exists",
   "$mod", "$all", "$regex", "$size"]

/-- Whether a query key starts with `'$'` (`key[0] != '$'`). -/
def isDollarKey (k : String) : Bool :=
  match k.data with
  | '$' :: _ => true
  | _ => false

/-- The `Object.keys`/values view of a value handed to a recursive
`analyzeQuery` call: plain objects expose their fields, arrays expose index
keys `"0"`, `"1"`, …, strings expose character index keys, and all other
primitives expose no keys. -/
def fieldsOfVal : MQVal → List (String × MQVal)
  | MQVal.obj g => g
  | MQVal.arr es => es.enum.map (fun p => (toString p.1, p.2))
  | MQVal.str s => s.data.enum.map (fun p => (toString p.1, MQVal.str (String.mk [p.2])))
  | _ => []

/-- JS truthiness of a query value (`if (query['$and']) …`). -/
def jsTruthy : MQVal → Bool
  | MQVal.str s => !(s == "")
  | MQVal.intg n => !(n == 0)
  | MQVal.boolean b => b
  | _ => true

/-- JS property read on the query object: the first field with the given
name. -/
def findField (fs : List (String × MQVal)) (k : String) : Option MQVal :=
  (fs.find? (fun p => p.1 == k)).map Prod.snd

/-- Append a path to the `exact` list of every current subprofile. -/
def pushExact (acc : List SubQuery) (path : String) : List SubQuery :=
  acc.map (fun sq => ⟨sq.exact ++ [path], sq.range⟩)

/-- Append a path to the `range` list of every current subprofile. -/
def pushRange (acc : List SubQuery) (path : String) : List SubQuery :=
  acc.map (fun sq => ⟨sq.exact, sq.range ++ [path]⟩)

mutual
/-- `analyzeQuery` (`query_profile.js:659-748`): process every key of the
query object, then the `$and` operands, then the `$or` disjuncts.  `fuel`
bounds the recursion depth (the JS recursion is bounded by the query's
structure); `Except.error` models a thrown `TypeError`. -/
def analyzeQ : Nat → List (String × MQVal) → String → Except String (List SubQuery)
  | 0, _, _ => Except.error "recursion limit"
  | Nat.succ fuel, fs, root => do
    let s₁ ← keyLoop fuel fs root [⟨[], []⟩]
    let s₂ ←
      match findField fs "$and" with
      | some v =>
        if jsTruthy v then
          match v with
          | MQVal.arr es => andLoop fuel es root s₁
          | _ => Except.error "TypeError: query.$and.forEach is not a function"
        else pure s₁
      | none => pure s₁
    match findField fs "$or" with
    | some v =>
      if jsTruthy v then
        match v with
        | MQVal.arr es => do
          let subs ← orMap fuel es root
          pure (mergeSubQueries s₂ subs)
        | _ => Except.error "TypeError: query.$or.map is not a function"
      else pure s₂
    | none => pure s₂

/-- The `Object.keys(query).forEach` loop of `analyzeQuery`
(`query_profile.js:668-730`). -/
def keyLoop : Nat → List (String × MQVal) → String → List SubQuery →
    Except String (List SubQuery)
  | 0, _, _, _ => Except.error "recursion limit"
  | Nat.succ _, [], _, acc => pure acc
  | Nat.succ fuel, (k, v) :: rest, root, acc => do
    let acc' ←
      if !(isDollarKey k) then
        match v with
        | MQVal.obj _ | MQVal.arr _ => do
          let subs ← analyzeQ fuel (fieldsOfVal v) (root ++ k)
          pure (mergeSubQueries acc subs)
        | _ => pure (pushExact acc (trimPeriods (root ++ k)))
      else
        if k ∈ rangeOpNames then pure (pushRange acc (trimPeriods root))
        else if k == "$eq" then pure (pushExact acc (trimPeriods root))
        else if k == "$not" then do
          let subs ← analyzeQ fuel (fieldsOfVal v) root
          pure (mergeSubQueries acc subs)
        else if k == "$elemMatch" then do
          let subs ← analyzeQ fuel (fieldsOfVal v) (root ++ ".")
          pure (mergeSubQueries acc subs)
        else if k == "$options" || k == "$hint" || k == "$explain" || k == "$text" then pure acc
        else if k == "$and" || k == "$or" then pure acc
        else if k == "$comment" then pure acc
        else pure acc
    keyLoop fuel rest root acc'

/-- The `$and` fold (`query_profile.js:733-739`): merge each operand's
analysis into the current subprofiles in turn. -/
def andLoop : Nat → List MQVal → String → List SubQuery → Except String (List SubQuery)
  | 0, _, _, _ => Except.error "recursion limit"
  | Nat.succ _, [], _, acc => pure acc
  | Nat.succ fuel, e :: rest, root, acc => do
    let sub ← analyzeQ fuel (fieldsOfVal e) root
    andLoop fuel rest root (mergeSubQueries acc sub)

/-- The `$or` map (`query_profile.js:742-745`): analyze each disjunct and
flatten. -/
def orMap : Nat → List MQVal → String → Except String (List SubQuery)
  | 0, _, _ => Except.error "recursion limit"
  | Nat.succ _, [], _ => pure []
  | Nat.succ fuel, e :: rest, root => do
    let a ← analyzeQ fuel (fieldsOfVal e) root
    let r ← orMap fuel rest root
    pure (a ++ r)
end

/-- `QueryProfile.createQueryProfilesFromMongoQuery`
(`query_profile.js:622-780`): analyze the query, then build one profile per
subprofile with deduplicated field lists and the sort object attached as-is.
(The `$comment`-derived `sources` metadata is attached in the same loop; no
claim concerns it, so the profile carries only the query shape.) -/
def createQueryProfilesFromMongoQuery (fuel : Nat) (ns : String)
    (query : List (String × MQVal)) (sort : List (String × Int)) :
    Except String (List QueryProfile) := do
  let subs ← analyzeQ fuel query ""
  pure (subs.map (fun sq => ⟨ns, usUniq sq.exact, sort, usUniq sq.range⟩))

/-- The fixed separator `"_____"` that replaces `'.'` in persisted field
names (`collection_statistics.js`). -/
def sepChars : List Char := ['_', '_', '_', '_', '_']

/-- `fieldName.replace(/\./g, "_____")`: every period becomes five
underscores (`CollectionStatistics.toJSON`). -/
def encodeDots : List Char → List Char
  | [] => []
  | '.' :: r => sepChars ++ encodeDots r
  | c :: r => c :: encodeDots r

/-- `fieldName.replace("_____", ".")`: a *string* pattern, so only the first
(leftmost) occurrence of the separator is replaced
(`CollectionStatistics` constructor). -/
def decodeFirstSep : List Char → List Char
  | '_' :: '_' :: '_' :: '_' :: '_' :: r => '.' :: r
  | c :: r => c :: decodeFirstSep r
  | [] => []

/-- Key encoding applied by `CollectionStatistics.toJSON`. -/
def encodeFieldName (s : String) : String :=
  String.mk (encodeDots s.data)

/-- Key decoding applied by the `CollectionStatistics` constructor. -/
def decodeFieldName (s : String) : String :=
  String.mk (decodeFirstSep s.data)

/-- `CollectionStatistics` (`lib/collection_statistics.js`): per-field
statistics, known array ancestors, and the last sample time (an ISO-8601
string in the JSON form; the `Date` round-trip is not itself at issue, so the
time is carried as an opaque string). -/
structure CollectionStatistics where
  fieldStatistics : List (String × FieldStatistics)
  knownArrayPrefixes : List String
  lastSampleTime : String
deriving DecidableEq, Repr

/-- `CollectionStatistics.prototype.toJSON`: encode every `'.'` in each
field-statistics key as the five-underscore separator. -/
def collectionStatisticsToJSON (cs : CollectionStatistics) : CollectionStatistics :=
  ⟨cs.fieldStatistics.map (fun p => (encodeFieldName p.1, p.2)),
   cs.knownArrayPrefixes, cs.lastSampleTime⟩

/-- The `CollectionStatistics` constructor applied to serialized data: decode
each field-statistics key with the (first-occurrence-only) string replace. -/
def collectionStatisticsOfJSON (data : CollectionStatistics) : CollectionStatistics :=
  ⟨data.fieldStatistics.map (fun p => (decodeFieldName p.1, p.2)),
   data.knownArrayPrefixes, data.lastSampleTime⟩

/-- A `source`/`version` entry of a query profile's `sources` list. -/
structure SourceEntry where
  source : String
  version : String
deriving DecidableEq, Repr

/-- The full mutable state of a stored `QueryProfile`
(`lib/query_profile.js` constructor): query shape plus usage metadata.
`lastQueryTime` is an abstract clock value. -/
structure ProfileRecord where
  nspace : String
  exact : List String
  sort : List (String × Int)
  range : List String
  usageCount : Nat
  lastQueryTime : Nat
  sources : List SourceEntry
deriving DecidableEq, Repr

/-- JS property read `sortObj[key]`. -/
def sortLookup (l : List (String × Int)) (k : String) : Option Int :=
  (l.find? (fun p => p.1 == k)).map Prod.snd

/-- `QueryProfile.isEquivalentToQueryProfile` (`query_profile.js:409-453`):
same namespace; same number of exact fields with no difference; same sort
keys with strictly equal directions; same range fields. -/
def isEquivalentToQueryProfile (p q : ProfileRecord) : Bool :=
  p.nspace == q.nspace
  && p.exact.length == q.exact.length
  && (usDifference p.exact q.exact).isEmpty
  && p.sort.length == q.sort.length
  && (usDifference (p.sort.map Prod.fst) (q.sort.map Prod.fst)).isEmpty
  && (p.sort.map Prod.fst).all (fun k => sortLookup p.sort k == sortLookup q.sort k)
  && p.range.length == q.range.length
  && (usDifference p.range q.range).isEmpty

/-- `QueryProfile.addSource` (`query_profile.js:318-338`): update the version
of the first existing entry with this source name, or append a new entry.
(The falsy-version default only turns a missing version into `""`; versions
are already strings here.) -/
def addSourceTo (sources : List SourceEntry) (s v : String) : List SourceEntry :=
  if (sources.find? (fun e => e.source == s)).isSome then
    updateFirst sources
  else
    sources ++ [⟨s, v⟩]
where
  updateFirst : List SourceEntry → List SourceEntry
    | [] => []
    | e :: r => if e.source == s then ⟨e.source, v⟩ :: r else e :: updateFirst r

/-- `QuerySet.addQueryProfile` (`query_set.js:68-91`): if no equivalent
profile exists, bump the new profile's usage count and append it; otherwise
bump the first equivalent profile, refresh its last-query time, and merge the
new profile's sources into it. -/
def addQueryProfile (now : Nat) : List ProfileRecord → ProfileRecord → List ProfileRecord
  | [], qp => [{ qp with usageCount := qp.usageCount + 1 }]
  | other :: rest, qp =>
    if isEquivalentToQueryProfile qp other then
      { other with
        lastQueryTime := now
        usageCount := other.usageCount + 1
        sources := qp.sources.foldl (fun acc s => addSourceTo acc s.source s.version)
          other.sources } :: rest
    else
      other :: addQueryProfile now rest qp

/-- The per-profile state that `QuerySet.reduceIndexes` operates on: the
profile's collection name and its current candidate (`reducedIndexes`) list.
(The JS passes whole `QueryProfile` objects; `reduceIndexes` reads only
`collectionName` and reads/writes `reducedIndexes`.) -/
structure ReducedProfile where
  collectionName : String
  reducedIndexes : List MongoIndex
deriving DecidableEq, Repr

/-- The `lhsSameIndexes` collection of `reduceIndexes` (`query_set.js:180`):
indexes of *other*, *later* profiles on the same collection that are the same
as `a`.  `i` is the position of the profile owning `a`; `j` counts positions
from the head of the remaining profile list. -/
def collectSameIndexes (a : MongoIndex) (coll : String) (i : Nat) :
    Nat → List ReducedProfile → List MongoIndex
  | _, [] => []
  | j, q :: rest =>
    (if !(j == i) && (q.collectionName == coll) then
      q.reducedIndexes.filter (fun b => isSameAs a b && decide (i < j))
    else []) ++ collectSameIndexes a coll i (j + 1) rest

/-- The `lhsPrefixedIndexes` collection of `reduceIndexes`
(`query_set.js:184`): indexes of other profiles on the same collection that
`a` is a strict index-prefix of.  The source guards this with
"not already counted as the same", which follows the `else if`. -/
def collectPrefixedIndexes (a : MongoIndex) (coll : String) (i : Nat) :
    Nat → List ReducedProfile → List MongoIndex
  | _, [] => []
  | j, q :: rest =>
    (if !(j == i) && (q.collectionName == coll) then
      q.reducedIndexes.filter
        (fun b => !(isSameAs a b && decide (i < j)) && isIndexPrefixOf a b)
    else []) ++ collectPrefixedIndexes a coll i (j + 1) rest

/-- The inner `for` loop over one profile's candidate list
(`query_set.js:167-205`): each candidate is replaced by the indexes it is a
prefix of (marking the pass as changed), else by later same-content indexes,
else kept.  Returns the new candidate list and whether a prefix replacement
happened. -/
def processProfileIndexes (ps : List ReducedProfile) (i : Nat) (coll : String) :
    List MongoIndex → List MongoIndex × Bool
  | [] => ([], false)
  | a :: rest =>
    let sameL := collectSameIndexes a coll i 0 ps
    let preL := collectPrefixedIndexes a coll i 0 ps
    let t := processProfileIndexes ps i coll rest
    if !preL.isEmpty then (preL ++ t.1, true)
    else if !sameL.isEmpty then (sameL ++ t.1, t.2)
    else (a :: t.1, t.2)

/-- `underscore.uniq(newLHSIndexes, false, JSON.stringify)`
(`query_set.js:207`): keep the first index with each serialized form.
`JSON.stringify` of a `MongoIndex` serializes exactly its enumerable fields,
so it is determined by (and injective on) the ordered key list. -/
def uniqByStringify : List MongoIndex → List MongoIndex :=
  go []
where
  go (seen : List (List (String × IndexEntryVal))) : List MongoIndex → List MongoIndex
    | [] => []
    | x :: r => if x.keys ∈ seen then go seen r else x :: go (x.keys :: seen) r

/-- One pass of the `while(changed)` loop of `reduceIndexes`, starting at
profile position `i` (`query_set.js:163-209`).  Each profile's candidate list
is rewritten in place, so later profiles see earlier profiles' updates.
`gas` is a structural bound on the number of positions still to process;
`reducePass` supplies `ps.length`, which always suffices because `List.set`
preserves the length (when the gas runs out the remaining-position test would
fail anyway). -/
def reducePassFrom : Nat → List ReducedProfile → Nat → Bool → List ReducedProfile × Bool
  | 0, ps, _, flag => (ps, flag)
  | Nat.succ gas, ps, i, flag =>
    if h : i < ps.length then
      let p := ps.get ⟨i, h⟩
      let r := processProfileIndexes ps i p.collectionName p.reducedIndexes
      reducePassFrom gas (ps.set i ⟨p.collectionName, uniqByStringify r.1⟩) (i + 1) (flag || r.2)
    else (ps, flag)

/-- One full pass over all profiles. -/
def reducePass (ps : List ReducedProfile) : List ReducedProfile × Bool :=
  reducePassFrom ps.length ps 0 false

/-- One step of the initial intra-profile duplicate scan
(`query_set.js:127-149`): the position `k` of the first pair `(n, k)` in scan
order with `n ≠ k` and `indexes[n].isSameAs(indexes[k])`. -/
def dedupScanIdx (l : List MongoIndex) : Option Nat :=
  l.enum.findSome? (fun p =>
    (l.enum.find? (fun q => !(q.1 == p.1) && isSameAs p.2 q.2)).map Prod.fst)

/-- The `while(cont)` duplicate-removal loop; each iteration removes one
element, so the list length bounds the iteration count. -/
def dedupLoop : Nat → List MongoIndex → List MongoIndex
  | 0, l => l
  | Nat.succ fuel, l =>
    match dedupScanIdx l with
    | none => l
    | some k => dedupLoop fuel (l.eraseIdx k)

/-- The initial per-profile duplicate removal of `reduceIndexes`. -/
def dedupReducedIndexes (l : List MongoIndex) : List MongoIndex :=
  dedupLoop l.length l

/-- The `while(changed)` loop of `reduceIndexes` with explicit fuel: `none`
models fuel exhaustion (the JS loop runs until a pass reports no change). -/
def reduceLoop : Nat → List ReducedProfile → Option (List ReducedProfile)
  | 0, _ => none
  | Nat.succ fuel, ps =>
    let r := reducePass ps
    if r.2 then reduceLoop fuel r.1 else some r.1

/-- `QuerySet.reduceIndexes` (`query_set.js:118-225`): intra-profile
duplicate removal, then the prefix-absorption loop to a fixed point.  (The
trailing `knownQueryProfiles` rebuild mutates only the indexes' back-pointer
lists, not any candidate list, and is not modelled; the sort-key lists that
`computeOptimalIndexSet` later derives from it are passed explicitly to
`simplifyIndex`.) -/
def reduceIndexes (fuel : Nat) (ps : List ReducedProfile) : Option (List ReducedProfile) :=
  reduceLoop fuel (ps.map (fun p => ⟨p.collectionName, dedupReducedIndexes p.reducedIndexes⟩))

/-- One field's entry in `MongoIndex.getIndexStatistics()`: the JS record also
carries `currentAverageDistinct` / `lastAverageDistinct`, which the
field-elimination decision never reads; `oid` models the record's object
identity, which the `===` comparison in `computeOptimalIndexSet` does read. -/
structure IndexFieldStatistics where
  oid : Nat
  reduction : Rat
deriving DecidableEq, Repr

/-- JS property read `indexStats[f]`. -/
def istatFind (st : List (String × IndexFieldStatistics)) (f : String) :
    Option IndexFieldStatistics :=
  (st.find? (fun p => p.1 == f)).map Prod.snd

/-- Total variant of `istatFind`; callers only use it for fields whose lookup
was already performed (and so succeeded) in the counting loop. -/
def istatD (st : List (String × IndexFieldStatistics)) (f : String) : IndexFieldStatistics :=
  (istatFind st f).getD ⟨0, 0⟩

/-- `MongoIndex.removeField` (`lib/mongo_index.js`): `delete self[field]`
removes the (single) property with that name, keeping the order of the rest.
(The name regeneration and statistics reset are not observed by any claim.) -/
def removeField (idx : MongoIndex) (f : String) : MongoIndex :=
  { idx with keys := idx.keys.eraseP (fun p => p.1 == f) }

/-- The `fieldsToExamine` of the simplify pass (`query_set.js:323-326`): the
index's fields minus the union of the serving profiles' sort keys (sort
fields may never be eliminated). -/
def fieldsToExamineOf (sortFieldLists : List (List String)) (idx : MongoIndex) : List String :=
  usDifference (idx.keys.map Prod.fst) (usUniq sortFieldLists.flatten)

/-- The `possibleFieldsToEliminate` counting loop (`query_set.js:329-338`):
how many examined fields have `reduction > minimumReduction`. -/
def exceedCount (minimumReduction : Rat) (st : List (String × IndexFieldStatistics))
    (fieldsToExamine : List String) : Nat :=
  fieldsToExamine.foldl
    (fun (n : Nat) f => if minimumReduction < (istatD st f).reduction then n + 1 else n) 0

/-- The `fieldsToExamine.forEach` scan (`query_set.js:356-363`): the last
field whose statistics record is identical (`===`) to `maxF`'s record. -/
def oidScan (st : List (String × IndexFieldStatistics)) (maxF : String)
    (fieldsToExamine : List String) : Option String :=
  fieldsToExamine.foldl
    (fun acc f => if (istatD st f).oid == (istatD st maxF).oid then some f else acc) none

/-- The decision core of the per-index body of the field-elimination
(simplify) pass of `QuerySet.computeOptimalIndexSet` (`query_set.js:308-374`),
for an index with more than one field and statistics for every examined
field:

* if no examined field has `reduction > minimumReduction`, nothing happens;
* otherwise the source computes `underscore.max` of the reduction values and
  then scans for the *last* field whose statistics record is `===` to the max
  field's record — object identity, so this always re-selects the max field
  itself (the first one on ties) — and removes it. -/
def simplifyCore (minimumReduction : Rat) (sortFieldLists : List (List String))
    (st : List (String × IndexFieldStatistics)) (idx : MongoIndex) : MongoIndex :=
  if exceedCount minimumReduction st (fieldsToExamineOf sortFieldLists idx) == 0 then idx
  else
    match usMaxBy (fun f => (istatD st f).reduction) (fieldsToExamineOf sortFieldLists idx) with
    | none => idx
    | some maxF =>
      match oidScan st maxF (fieldsToExamineOf sortFieldLists idx) with
      | some f => removeField idx f
      | none => idx

/-- The per-index body of the field-elimination (simplify) pass
(`query_set.js:308-374`): an index with exactly one field is never touched;
otherwise the counting loop dereferences `.reduction` on every examined
field's statistics record, throwing a `TypeError` at the first field with no
record (the failure check is hoisted into one guard; the same inputs fail,
and on non-failing inputs `simplifyCore` gives the loop's result). -/
def simplifyIndex (minimumReduction : Rat) (sortFieldLists : List (List String))
    (st : List (String × IndexFieldStatistics)) (idx : MongoIndex) :
    Except String MongoIndex :=
  if idx.keys.length == 1 then Except.ok idx
  else if (fieldsToExamineOf sortFieldLists idx).all (fun f => (istatFind st f).isSome) then
    Except.ok (simplifyCore minimumReduction sortFieldLists st idx)
  else Except.error "TypeError: Cannot read property reduction of undefined"

/-- Code-unit lexicographic string comparison, as used by the JS sort
comparator on canonical strings (for the characters appearing in canonical
index strings this agrees with JS UTF-16 code-unit order). -/
def strLtB : List Char → List Char → Bool
  | [], [] => false
  | [], _ :: _ => true
  | _ :: _, [] => false
  | a :: as, b :: bs =>
    if a.toNat < b.toNat then true
    else if b.toNat < a.toNat then false
    else strLtB as bs

/-- Non-strict form of `strLtB` on strings. -/
def canonLe (a b : String) : Prop := !(strLtB b.data a.data) = true

instance : DecidableRel canonLe := fun _ _ => instDecidableEqBool _ _

/-- `underscore.sortBy(strings, identity)`: a sort in ascending code-unit
order (the sorted order itself is irrelevant to every claim; membership is
what matters). -/
def usSortStrings (l : List String) : List String :=
  l.insertionSort canonLe

/-- Escape `'"'` and `'\'` as JSON does (`JSON.stringify` escapes a few more
control characters, which cannot occur in the field names at issue). -/
def jsonEscape (s : String) : String :=
  String.mk (s.data.flatMap (fun c =>
    if c == '"' then ['\\', '"']
    else if c == '\\' then ['\\', '\\']
    else [c]))

/-- The serialized form of one index entry value. -/
def entryValJson : IndexEntryVal → String
  | IndexEntryVal.num n => toString n
  | IndexEntryVal.hashed => "\"hashed\""

/-- `MongoIndex.canonicalString` (`lib/mongo_index.js`): `JSON.stringify` of
the index object — determined by the ordered field list. -/
def canonicalString (i : MongoIndex) : String :=
  "\x7b" ++ String.intercalate ","
    (i.keys.map (fun p => "\"" ++ jsonEscape p.1 ++ "\":" ++ entryValJson p.2))
  ++ "\x7d"

/-- The per-collection result record of the reconciler
(`index_set.js:84-89`). -/
structure IndexChanges where
  collectionName : String
  create : List MongoIndex
  drop : List MongoIndex
  keep : List MongoIndex
deriving DecidableEq, Repr

/-- `groupBy(list, canonicalString)[k][0]`: the first index in the list with
the given canonical string (total with a dummy default; only applied to
canonical strings that are present). -/
def firstWithCanon (l : List MongoIndex) (k : String) : MongoIndex :=
  ((l.filter (fun i => canonicalString i == k)).head?).getD ⟨0, [], "", ""⟩

/-- `name.indexOf('auto_') == 0`: the name starts with the ownership marker
`auto_` (`index_set.js:78-79`). -/
def startsWithAuto (name : String) : Bool :=
  match name.data with
  | 'a' :: 'u' :: 't' :: 'o' :: '_' :: _ => true
  | _ => false

/-- The body of the per-collection `underscore.map` in
`IndexSet.getRecommendedIndexChanges` (`index_set.js:62-89`): diff the
recommended and existing canonical strings of one collection into
create / drop / keep, moving non-`auto_`-named existing indexes from drop to
keep.  (The `setIndexExists` marking is a side effect on index objects that
no claim observes.) -/
def changesForCollection (recommended current : List MongoIndex) (c : String) : IndexChanges :=
  let existingIndexes := current.filter (fun i => i.collectionName == c)
  let wantedIndexes := recommended.filter (fun i => i.collectionName == c)
  let existingCanon := usSortStrings (usUniq (existingIndexes.map canonicalString))
  let wantedCanon := usSortStrings (usUniq (wantedIndexes.map canonicalString))
  let indexesToCreate := wantedCanon.filter (fun k => decide (k ∉ existingCanon))
  let dropPre := existingCanon.filter (fun k => decide (k ∉ wantedCanon))
  let keepInter := existingCanon.filter (fun k => decide (k ∈ wantedCanon))
  let keepAll := keepInter ++ dropPre.filter
    (fun k => !(startsWithAuto (firstWithCanon existingIndexes k).indexName))
  let dropF := dropPre.filter
    (fun k => startsWithAuto (firstWithCanon existingIndexes k).indexName)
  ⟨c,
   indexesToCreate.map (firstWithCanon wantedIndexes),
   dropF.map (firstWithCanon existingIndexes),
   keepAll.map (fun k =>
     if !(wantedIndexes.filter (fun i => canonicalString i == k)).isEmpty then
       firstWithCanon wantedIndexes k
     else
       firstWithCanon existingIndexes k)⟩

/-- `IndexSet.getRecommendedIndexChanges` (`index_set.js:50-91`): one
`IndexChanges` record per collection mentioned by either index set
(`allCollections` in first-occurrence order). -/
def getRecommendedIndexChanges (recommended current : List MongoIndex) : List IndexChanges :=
  (usUniq (recommended.map (fun i => i.collectionName)
      ++ current.map (fun i => i.collectionName))).map
    (changesForCollection recommended current)

/-! ## Inputs and theorems for the individual claims -/

/-- Statistics for the C1 failing input: three exact fields living inside
three distinct arrays. -/
def c1Stats : KeyStatistics :=
  [("a", ⟨FieldMode.normal, 10, 1, ["p"]⟩),
   ("b", ⟨FieldMode.normal, 9, 1, ["q"]⟩),
   ("c", ⟨FieldMode.normal, 8, 1, ["r"]⟩)]

/-- The C1 failing profile: exact fields `a`, `b`, `c`, no sort, no range. -/
def c1Profile : QueryProfile := ⟨"db.users", ["a", "b", "c"], [], []⟩

/-- Claim C1 (code bug): with three distinct array prefixes present, the
parallel-array split produces one compound per array prefix, but the filter
`arrayPrefixes.length == 0 || arrayPrefixes.indexOf(arrayPrefix) == -1` keeps
exactly the fields that do *not* mention the branch's prefix, the opposite of
the claimed "empty or contains that prefix".  The branch for `"p"` emits the
index `(b, c)`, whose two fields live inside the two *other* distinct arrays
`"q"` and `"r"` — so this compound touches two array prefixes, which the
code's own comment (one index per array prefix, since Mongo cannot index
parallel arrays) rules out. -/
theorem claim_C1_parallel_array_split_bug :
    optimizedIndexes 3 c1Stats c1Profile = Except.ok
      [⟨0, [("b", IndexEntryVal.num 1), ("c", IndexEntryVal.num 1)], "users", ""⟩,
       ⟨0, [("a", IndexEntryVal.num 1), ("c", IndexEntryVal.num 1)], "users", ""⟩,
       ⟨0, [("a", IndexEntryVal.num 1), ("b", IndexEntryVal.num 1)], "users", ""⟩]
    ∧ arrayPrefixList 3 c1Stats c1Profile = ["p", "q", "r"]
    ∧ (statD c1Stats "b").arrayPrefixes = ["q"]
    ∧ (statD c1Stats "c").arrayPrefixes = ["r"]
    ∧ ("q" : String) ≠ "r" :=
  ⟨rfl, rfl, rfl, rfl, by decide⟩

/-- Statistics for the C10 input: two distinct array prefixes among the
remaining fields, and a non-empty sort. -/
def c10Stats : KeyStatistics :=
  [("a", ⟨FieldMode.normal, 10, 1, ["p"]⟩),
   ("b", ⟨FieldMode.normal, 9, 1, ["q"]⟩),
   ("s", ⟨FieldMode.normal, 5, 1, []⟩)]

/-- The C10 profile: one exact field and one range field in two different
arrays, sorted by `s` descending. -/
def c10Profile : QueryProfile := ⟨"db.u", ["a"], [("s", -1)], ["b"]⟩

/-- Claim C10: on a profile whose remaining fields span two distinct array
prefixes and whose sort is non-empty, `optimizedIndexes` throws a `TypeError`:
the per-prefix branch applies `underscore.filter` to the sort *object*, so the
filter callback receives the direction values, and `keyStatistics[-1]` is
`undefined`, whose `.arrayPrefixes` access throws. -/
theorem claim_C10_sort_filter_typeerror :
    optimizedIndexes 3 c10Stats c10Profile
      = Except.error "TypeError: Cannot read property of undefined"
    ∧ (arrayPrefixList 3 c10Stats c10Profile).length = 2
    ∧ c10Profile.sort ≠ []
    ∧ statFind c10Stats (toString (-1 : Int)) = none :=
  ⟨rfl, rfl, by decide, rfl⟩

/-- The C4 query
`\x7bname:"brad", $or:[\x7bemail:\x7b$exists:true\x7d\x7d, \x7bstatus:"registered", email:"x"\x7d]\x7d`. -/
def c4Query : List (String × MQVal) :=
  [("name", MQVal.str "brad"),
   ("$or", MQVal.arr
     [MQVal.obj [("email", MQVal.obj [("$exists", MQVal.boolean true)])],
      MQVal.obj [("status", MQVal.str "registered"), ("email", MQVal.str "x")]])]

/-- The first profile the decomposer actually produces for the C4 query. -/
def c4Profile1 : QueryProfile := ⟨"db.users", ["name"], [("birthday", -1)], ["email"]⟩

/-- The second profile the decomposer actually produces for the C4 query:
`email:"x"` is a primitive equality, so `email` lands in the *exact* set of
the second disjunct's profile, not in its range set. -/
def c4Profile2 : QueryProfile := ⟨"db.users", ["name", "status", "email"], [("birthday", -1)], []⟩

/-- The second profile the claim says is produced. -/
def c4Profile2Claimed : QueryProfile := ⟨"db.users", ["name", "status"], [("birthday", -1)], ["email"]⟩

/-- Claim C4, counterexample: the decomposer produces two profiles, but the
second is `exact:(name,status,email), range:()` — the claimed profile
`exact:(name,status), range:(email)` is not produced at all (on the second
disjunct `email` is matched against the primitive `"x"`, an exact match). -/
theorem claim_C4_counterexample :
    createQueryProfilesFromMongoQuery 10 "db.users" c4Query [("birthday", -1)]
      = Except.ok [c4Profile1, c4Profile2]
    ∧ c4Profile2 ≠ c4Profile2Claimed
    ∧ c4Profile1 ≠ c4Profile2Claimed :=
  ⟨rfl, by decide, by decide⟩

/-- Claim C4 (amended): decomposing the C4 query with sort `birthday:-1`
produces exactly two profiles by cartesian `$or` expansion:
`exact:(name), sort:(birthday:-1), range:(email)` for the `$exists` disjunct,
and `exact:(name,status,email), sort:(birthday:-1), range:()` for the
equality disjunct. -/
theorem claim_C4_or_expansion :
    createQueryProfilesFromMongoQuery 10 "db.users" c4Query [("birthday", -1)]
      = Except.ok [c4Profile1, c4Profile2] :=
  rfl

/-- Claim C6 (code bug): `toJSON` encodes every `'.'` as five underscores
(`replace(/\./g, …)`), but the constructor decodes with a *string*-pattern
`replace`, which rewrites only the first occurrence; a field path with two
dots does not round-trip. -/
theorem claim_C6_roundtrip_bug :
    collectionStatisticsOfJSON (collectionStatisticsToJSON
        ⟨[("a.b.c", ⟨FieldMode.normal, 5, 1, []⟩)], ["a"], "2017-01-01T00:00:00.000Z"⟩)
      = ⟨[("a.b_____c", ⟨FieldMode.normal, 5, 1, []⟩)], ["a"], "2017-01-01T00:00:00.000Z"⟩
    ∧ ("a.b_____c" : String) ≠ "a.b.c"
    ∧ decodeFieldName (encodeFieldName "a.b") = "a.b" :=
  ⟨rfl, by decide, rfl⟩

/-- The shorter index of the C2 counterexample (a strict index-prefix of
`c2ixy`), held by the same profile. -/
def c2ix : MongoIndex := ⟨0, [("x", IndexEntryVal.num 1)], "c", ""⟩

/-- The longer index of the C2 counterexample. -/
def c2ixy : MongoIndex := ⟨1, [("x", IndexEntryVal.num 1), ("y", IndexEntryVal.num 1)], "c", ""⟩

/-- Claim C2, counterexample: `reduceIndexes` only ever compares a candidate
against *other* profiles' candidates (`rhsQueryN != lhsQueryN`), so a single
profile holding both `(x)` and `(x,y)` reaches the fixed point unchanged, and
the returned candidate set contains two distinct candidates of the same
collection, one a strict index-prefix of the other. -/
theorem claim_C2_counterexample :
    reduceIndexes 4 [⟨"c", [c2ix, c2ixy]⟩] = some [⟨"c", [c2ix, c2ixy]⟩]
    ∧ isIndexPrefixOf c2ix c2ixy = true
    ∧ c2ix ≠ c2ixy :=
  ⟨rfl, rfl, by decide⟩

/-- The index of the C3 counterexample: fields `a` then `b`. -/
def c3Index : MongoIndex :=
  ⟨0, [("a", IndexEntryVal.num 1), ("b", IndexEntryVal.num 1)], "c", ""⟩

/-- Index statistics for the C3 counterexample: both reductions exceed the
minimum reduction `1`, and `a`'s reduction `3` is the larger. -/
def c3Stats : List (String × IndexFieldStatistics) := [("a", ⟨0, 3⟩), ("b", ⟨1, 2⟩)]

/-- Claim C3, counterexample: with eligible fields `a` (reduction `3`) and `b`
(reduction `2`) and `minimumReduction = 1`, both exceed the threshold; the
claim picks the last such field, `b`, but the code removes `a`: the scan for
"the last field with this exact value" compares records by identity (`===`)
against `underscore.max`'s record, so it always re-selects the maximum-
reduction field. -/
theorem claim_C3_counterexample :
    simplifyIndex 1 [] c3Stats c3Index
      = Except.ok ⟨0, [("b", IndexEntryVal.num 1)], "c", ""⟩
    ∧ removeField c3Index "b" = ⟨0, [("a", IndexEntryVal.num 1)], "c", ""⟩
    ∧ (⟨0, [("b", IndexEntryVal.num 1)], "c", ""⟩ : MongoIndex)
        ≠ ⟨0, [("a", IndexEntryVal.num 1)], "c", ""⟩ :=
  ⟨rfl, rfl, by decide⟩

/-- Bumping the usage count does not affect profile equivalence (the
comparison reads only namespace, exact, sort and range). -/
theorem isEquiv_usage_bump (p q : ProfileRecord) (n : Nat) :
    isEquivalentToQueryProfile p { q with usageCount := n } = isEquivalentToQueryProfile p q :=
  rfl

/-- Merging a batch of sources whose names are fresh (pairwise distinct and
absent from the accumulator) just appends them. -/
theorem foldl_addSourceTo_append (srcs : List SourceEntry) (acc : List SourceEntry)
    (h : ∀ s ∈ srcs, ∀ t ∈ acc, s.source ≠ t.source)
    (hn : (srcs.map SourceEntry.source).Nodup) :
    srcs.foldl (fun a s => addSourceTo a s.source s.version) acc = acc ++ srcs := by
  induction srcs generalizing acc with
  | nil => simp
  | cons s r ih =>
    have hfind : (acc.find? (fun e => e.source == s.source)) = none := by
      apply List.find?_eq_none.mpr
      intro t ht
      simp only [beq_iff_eq]
      exact fun he => (h s (by simp) t ht) he.symm
    have hstep : addSourceTo acc s.source s.version = acc ++ [s] := by
      unfold addSourceTo
      rw [hfind]
      simp
    simp only [List.foldl_cons, hstep]
    rw [ih (acc ++ [s])]
    · simp
    · intro x hx t ht
      rcases List.mem_append.mp ht with hta | hts
      · exact h x (by simp [hx]) t hta
      · have : t = s := by simpa using hts
        subst this
        simp only [List.map_cons, List.nodup_cons] at hn
        intro he
        exact hn.1 (he ▸ List.mem_map_of_mem SourceEntry.source hx)
    · simp only [List.map_cons, List.nodup_cons] at hn
      exact hn.2

/-- Claim C9: adding two equivalent, freshly decomposed profiles (usage count
zero, source names disjoint) to an empty `QuerySet` yields exactly one stored
profile with `usageCount = 2` and the two profiles' sources concatenated
(the union, as the names are distinct). -/
theorem claim_C9_equivalence_dedup (t1 t2 : Nat) (p1 p2 : ProfileRecord)
    (hequiv : isEquivalentToQueryProfile p2 p1 = true)
    (hu1 : p1.usageCount = 0) (_hu2 : p2.usageCount = 0)
    (hdisj : ∀ s ∈ p2.sources, ∀ t ∈ p1.sources, s.source ≠ t.source)
    (hn : (p2.sources.map SourceEntry.source).Nodup) :
    addQueryProfile t2 (addQueryProfile t1 [] p1) p2
      = [{ p1 with
           usageCount := 2
           lastQueryTime := t2
           sources := p1.sources ++ p2.sources }] := by
  have h1 : addQueryProfile t1 [] p1 = [{ p1 with usageCount := p1.usageCount + 1 }] := rfl
  rw [h1]
  have hcond : isEquivalentToQueryProfile p2 { p1 with usageCount := p1.usageCount + 1 } = true := by
    rw [isEquiv_usage_bump]
    exact hequiv
  simp only [addQueryProfile, hcond, if_true]
  rw [foldl_addSourceTo_append p2.sources p1.sources hdisj hn]
  simp [hu1]

/-- Witness for C9 at a concrete pair of equivalent profiles with distinct
sources. -/
theorem claim_C9_equivalence_dedup_witness :
    addQueryProfile 7 (addQueryProfile 3 []
        ⟨"db.u", ["name"], [("b", -1)], ["email"], 0, 0, [⟨"s1", "1"⟩]⟩)
        ⟨"db.u", ["name"], [("b", -1)], ["email"], 0, 0, [⟨"s2", "2"⟩]⟩
      = [⟨"db.u", ["name"], [("b", -1)], ["email"], 2, 7, [⟨"s1", "1"⟩, ⟨"s2", "2"⟩]⟩] :=
  claim_C9_equivalence_dedup 3 7
    ⟨"db.u", ["name"], [("b", -1)], ["email"], 0, 0, [⟨"s1", "1"⟩]⟩
    ⟨"db.u", ["name"], [("b", -1)], ["email"], 0, 0, [⟨"s2", "2"⟩]⟩
    (by decide) rfl rfl (by decide) (by decide)

/-- Membership characterization of the `usUniq` worker. -/
theorem usUniq_go_mem {α : Type} [DecidableEq α] (a : α) (seen : List α) (l : List α) :
    a ∈ usUniq.go seen l ↔ a ∈ l ∧ a ∉ seen := by
  induction l generalizing seen with
  | nil => simp [usUniq.go]
  | cons x r ih =>
    by_cases hx : x ∈ seen
    · rw [usUniq.go, if_pos hx, ih]
      constructor
      · rintro ⟨h1, h2⟩
        exact ⟨List.mem_cons_of_mem _ h1, h2⟩
      · rintro ⟨h1, h2⟩
        rcases List.mem_cons.mp h1 with rfl | h1
        · exact absurd hx h2
        · exact ⟨h1, h2⟩
    · rw [usUniq.go, if_neg hx]
      simp only [List.mem_cons, ih, List.mem_cons]
      constructor
      · rintro (rfl | ⟨h1, h2⟩)
        · exact ⟨Or.inl rfl, hx⟩
        · exact ⟨Or.inr h1, fun hs => h2 (Or.inr hs)⟩
      · rintro ⟨rfl | h1, h2⟩
        · exact Or.inl rfl
        · by_cases hax : a = x
          · exact Or.inl hax
          · exact Or.inr ⟨h1, fun hs => by
              rcases hs with hs | hs
              · exact hax hs
              · exact h2 hs⟩

/-- `usUniq` preserves membership. -/
theorem mem_usUniq {α : Type} [DecidableEq α] (a : α) (l : List α) :
    a ∈ usUniq l ↔ a ∈ l := by
  rw [usUniq, usUniq_go_mem]
  simp

/-- `usSortStrings` preserves membership. -/
theorem mem_usSortStrings (s : String) (l : List String) :
    s ∈ usSortStrings l ↔ s ∈ l :=
  List.mem_insertionSort canonLe

/-- The head of a non-empty list whose elements are all `e` is `e`. -/
theorem head?_of_all_eq {α : Type} (l : List α) (e : α) (hne : l ≠ [])
    (hall : ∀ x ∈ l, x = e) : l.head? = some e := by
  cases l with
  | nil => exact absurd rfl hne
  | cons h t => simp [hall h (by simp)]

/-- When every index of `l` with `e`'s canonical string *is* `e`, the group
representative for that canonical string is `e` itself. -/
theorem firstWithCanon_eq (l : List MongoIndex) (e : MongoIndex) (he : e ∈ l)
    (huniq : ∀ x ∈ l, canonicalString x = canonicalString e → x = e) :
    firstWithCanon l (canonicalString e) = e := by
  unfold firstWithCanon
  have hmem : e ∈ l.filter (fun i => canonicalString i == canonicalString e) :=
    List.mem_filter.mpr ⟨he, by simp⟩
  rw [head?_of_all_eq _ e (List.ne_nil_of_mem hmem)]
  · rfl
  · intro x hx
    have h := List.mem_filter.mp hx
    exact huniq x h.1 (by simpa using h.2)

/-- Claim C5: in every reconciliation output, (a) every index in `drop` has a
name beginning with `auto_`, and (b) every existing index that matches no
recommended index of its collection and whose name does not begin with
`auto_` is placed in the `keep` list of its collection's changes record.
The hypothesis `hwf` is the `IndexSet` well-formedness from the data model:
the existing indexes of one collection are a *set* under canonical sequence
equality (a Mongo collection cannot hold two indexes with the same key
pattern). -/
theorem claim_C5_ownership_rule (recommended current : List MongoIndex)
    (hwf : ∀ a ∈ current, ∀ b ∈ current, a.collectionName = b.collectionName →
      canonicalString a = canonicalString b → a = b) :
    (∀ ch ∈ getRecommendedIndexChanges recommended current,
      ∀ i ∈ ch.drop, startsWithAuto i.indexName = true)
    ∧ (∀ e ∈ current, startsWithAuto e.indexName = false →
        (∀ w ∈ recommended, w.collectionName = e.collectionName →
          canonicalString w ≠ canonicalString e) →
        ∃ ch ∈ getRecommendedIndexChanges recommended current,
          ch.collectionName = e.collectionName ∧ e ∈ ch.keep) := by
  constructor
  · intro ch hch i hi
    obtain ⟨c, _hc, rfl⟩ := List.mem_map.mp hch
    simp only [changesForCollection] at hi
    obtain ⟨k, hk, rfl⟩ := List.mem_map.mp hi
    exact (List.mem_filter.mp hk).2
  · intro e he hauto hnomatch
    refine ⟨changesForCollection recommended current e.collectionName,
      List.mem_map.mpr ⟨e.collectionName, ?_, rfl⟩, rfl, ?_⟩
    · rw [mem_usUniq]
      exact List.mem_append.mpr (Or.inr (List.mem_map_of_mem _ he))
    · -- e lands in the keep list of its collection's record
      simp only [changesForCollection]
      have heF : e ∈ current.filter (fun i => i.collectionName == e.collectionName) :=
        List.mem_filter.mpr ⟨he, by simp⟩
      have hrep : firstWithCanon
          (current.filter (fun i => i.collectionName == e.collectionName))
          (canonicalString e) = e := by
        apply firstWithCanon_eq _ _ heF
        intro x hx hcx
        have h := List.mem_filter.mp hx
        exact hwf x h.1 e he (by simpa using h.2) hcx
      have hkmem : canonicalString e ∈ usSortStrings (usUniq
          ((current.filter (fun i => i.collectionName == e.collectionName)).map
            canonicalString)) := by
        rw [mem_usSortStrings, mem_usUniq]
        exact List.mem_map_of_mem _ heF
      have hnotwanted : canonicalString e ∉ usSortStrings (usUniq
          ((recommended.filter (fun i => i.collectionName == e.collectionName)).map
            canonicalString)) := by
        rw [mem_usSortStrings, mem_usUniq]
        intro hmem
        obtain ⟨w, hw, hwc⟩ := List.mem_map.mp hmem
        have h := List.mem_filter.mp hw
        exact hnomatch w h.1 (by simpa using h.2) hwc
      have hwantedEmpty : (recommended.filter (fun i => i.collectionName == e.collectionName)).filter
          (fun i => canonicalString i == canonicalString e) = [] := by
        apply List.filter_eq_nil_iff.mpr
        intro w hw
        have h := List.mem_filter.mp hw
        simp only [beq_iff_eq]
        exact hnomatch w h.1 (by simpa using h.2)
      apply List.mem_map.mpr
      refine ⟨canonicalString e, ?_, ?_⟩
      · apply List.mem_append.mpr
        apply Or.inr
        apply List.mem_filter.mpr
        refine ⟨List.mem_filter.mpr ⟨hkmem, by simpa using hnotwanted⟩, ?_⟩
        rw [hrep, hauto]
        rfl
      · rw [hwantedEmpty]
        simp only [List.isEmpty_nil, Bool.not_true, if_false, Bool.false_eq_true]
        exact hrep

/-- The user-owned existing index of scenario S8. -/
def c5UserIndex : MongoIndex :=
  ⟨0, [("email", IndexEntryVal.num 1)], "users", "user_email_unique"⟩

/-- The engine-owned existing index of S8 that matches no recommendation. -/
def c5AutoAbc : MongoIndex := ⟨1, [("a", IndexEntryVal.num 1)], "users", "auto_abc"⟩

/-- The engine-owned existing index of S8 that matches a recommendation. -/
def c5AutoDef : MongoIndex := ⟨2, [("d", IndexEntryVal.num 1)], "users", "auto_def"⟩

/-- The recommended index of S8 (same key pattern as `c5AutoDef`). -/
def c5Wanted : MongoIndex := ⟨3, [("d", IndexEntryVal.num 1)], "users", "auto_def2"⟩

/-- Witness for C5 at the S8 scenario: every dropped index is `auto_`-named,
and the unmatched user-owned index is kept. -/
theorem claim_C5_ownership_rule_witness :
    (∀ ch ∈ getRecommendedIndexChanges [c5Wanted] [c5UserIndex, c5AutoAbc, c5AutoDef],
      ∀ i ∈ ch.drop, startsWithAuto i.indexName = true)
    ∧ (∃ ch ∈ getRecommendedIndexChanges [c5Wanted] [c5UserIndex, c5AutoAbc, c5AutoDef],
        ch.collectionName = c5UserIndex.collectionName ∧ c5UserIndex ∈ ch.keep) := by
  have h := claim_C5_ownership_rule [c5Wanted] [c5UserIndex, c5AutoAbc, c5AutoDef] (by decide)
  exact ⟨h.1, h.2 c5UserIndex (by decide) (by decide) (by decide)⟩

/-- `m` is the first element of `l` attaining the maximum of `key`: everything
before it is strictly smaller, everything after it no larger. -/
def IsFirstMaxBy {α : Type} (key : α → Rat) (l : List α) (m : α) : Prop :=
  ∃ l₁ l₂, l = l₁ ++ m :: l₂ ∧ (∀ x ∈ l₁, key x < key m) ∧ (∀ x ∈ l₂, key x ≤ key m)

/-- The fold underlying `usMaxBy`, started from a seed, finds the first
maximum of seed-then-list. -/
theorem foldl_max_first {α : Type} (key : α → Rat) (l : List α) (b : α) :
    ∃ m, l.foldl (fun acc x =>
        match acc with
        | none => some x
        | some c => if key c < key x then some x else acc) (some b) = some m
      ∧ IsFirstMaxBy key (b :: l) m := by
  induction l generalizing b with
  | nil => exact ⟨b, rfl, [], [], rfl, by simp, by simp⟩
  | cons x r ih =>
    simp only [List.foldl_cons]
    by_cases hbx : key b < key x
    · rw [if_pos hbx]
      obtain ⟨m, hm, l₁, l₂, hsplit, hlt, hle⟩ := ih x
      have hxm : key x ≤ key m := by
        cases l₁ with
        | nil =>
          simp only [List.nil_append, List.cons.injEq] at hsplit
          rw [hsplit.1]
        | cons y t =>
          simp only [List.cons_append, List.cons.injEq] at hsplit
          exact le_of_lt (hsplit.1 ▸ hlt y (by simp))
      exact ⟨m, hm, b :: l₁, l₂, by simp [hsplit], by
        intro z hz
        rcases List.mem_cons.mp hz with rfl | hz
        · exact lt_of_lt_of_le hbx hxm
        · exact hlt z hz, hle⟩
    · rw [if_neg hbx]
      obtain ⟨m, hm, l₁, l₂, hsplit, hlt, hle⟩ := ih b
      cases l₁ with
      | nil =>
        simp only [List.nil_append, List.cons.injEq] at hsplit
        refine ⟨m, hm, [], x :: l₂, by simp [hsplit.1, hsplit.2], by simp, ?_⟩
        intro z hz
        rcases List.mem_cons.mp hz with rfl | hz
        · rw [← hsplit.1]
          exact le_of_not_lt hbx
        · exact hle z hz
      | cons y t =>
        simp only [List.cons_append, List.cons.injEq] at hsplit
        refine ⟨m, hm, b :: x :: t, l₂, by simp [hsplit.1, hsplit.2], ?_, hle⟩
        intro z hz
        rcases List.mem_cons.mp hz with rfl | hz
        · exact hsplit.1 ▸ hlt y (by simp)
        · rcases List.mem_cons.mp hz with rfl | hz
          · exact lt_of_le_of_lt (le_of_not_lt hbx) (hsplit.1 ▸ hlt y (by simp))
          · exact hlt z (by simp [hz])

/-- `usMaxBy` on a non-empty list returns the first element attaining the
maximum. -/
theorem usMaxBy_spec {α : Type} (key : α → Rat) (l : List α) (hl : l ≠ []) :
    ∃ m, usMaxBy key l = some m ∧ IsFirstMaxBy key l m := by
  cases l with
  | nil => exact absurd rfl hl
  | cons b r =>
    obtain ⟨m, hm, hfm⟩ := foldl_max_first key r b
    exact ⟨m, hm, hfm⟩

/-- The exceed-counting fold stays at its seed exactly when no listed field
exceeds the threshold. -/
theorem foldl_count_eq_seed (minR : Rat) (st : List (String × IndexFieldStatistics)) :
    ∀ (l : List String) (n : Nat),
      n ≤ l.foldl (fun (n : Nat) f => if minR < (istatD st f).reduction then n + 1 else n) n
      ∧ (l.foldl (fun (n : Nat) f => if minR < (istatD st f).reduction then n + 1 else n) n = n
        ↔ ∀ f ∈ l, ¬ minR < (istatD st f).reduction) := by
  intro l
  induction l with
  | nil => intro n; simp
  | cons f r ih =>
    intro n
    rw [List.foldl_cons]
    by_cases hf : minR < (istatD st f).reduction
    · rw [if_pos hf]
      have h := ih (n + 1)
      constructor
      · omega
      · constructor
        · intro he
          omega
        · intro hall
          exact absurd hf (hall f (by simp))
    · rw [if_neg hf]
      have h := ih n
      constructor
      · exact h.1
      · rw [h.2]
        constructor
        · intro hall g hg
          rcases List.mem_cons.mp hg with rfl | hg
          · exact hf
          · exact hall g hg
        · intro hall g hg
          exact hall g (by simp [hg])

/-- Under oid-injectivity, the identity-comparison scan of `simplifyIndex`
selects exactly the `underscore.max` field. -/
theorem foldl_oid_scan (st : List (String × IndexFieldStatistics)) (m : String) :
    ∀ (l : List String) (acc : Option String),
      (∀ f ∈ l, (istatD st f).oid = (istatD st m).oid → f = m) →
      ((m ∈ l → l.foldl (fun acc f =>
          if (istatD st f).oid == (istatD st m).oid then some f else acc) acc = some m)
      ∧ (m ∉ l → l.foldl (fun acc f =>
          if (istatD st f).oid == (istatD st m).oid then some f else acc) acc = acc)) := by
  intro l
  induction l with
  | nil => intro acc _; simp
  | cons f r ih =>
    intro acc hinj
    rw [List.foldl_cons]
    by_cases hf : (istatD st f).oid = (istatD st m).oid
    · have hfm : f = m := hinj f (by simp) hf
      subst hfm
      rw [if_pos (by simp)]
      have h := ih (some f) (fun g hg => hinj g (by simp [hg]))
      constructor
      · intro _
        by_cases hm : f ∈ r
        · exact h.1 hm
        · exact h.2 hm
      · intro hm
        exact absurd (by simp) hm
    · rw [if_neg (by simpa using hf)]
      have h := ih acc (fun g hg => hinj g (by simp [hg]))
      constructor
      · intro hm
        rcases List.mem_cons.mp hm with rfl | hm
        · exact absurd rfl hf
        · exact h.1 hm
      · intro hm
        exact h.2 (fun hc => hm (by simp [hc]))

/-- Claim C3 (amended): in a simplify pass, for an index with more than one
field whose examined fields all carry (identity-distinct) statistics records,
eligibility is exactly `fieldsToExamineOf` (index fields minus all serving
profiles' sort keys); if no eligible field's reduction exceeds
`minimumReduction` the index is unchanged, and otherwise exactly one field is
removed — the *first* eligible field attaining the *maximum* reduction (whose
reduction then necessarily exceeds the threshold) — not the last
threshold-exceeding field of the original claim. -/
theorem claim_C3_field_elimination (minR : Rat) (sortLists : List (List String))
    (st : List (String × IndexFieldStatistics)) (idx : MongoIndex)
    (hlen : 1 < idx.keys.length)
    (hcov : ∀ f ∈ fieldsToExamineOf sortLists idx, (istatFind st f).isSome)
    (hinj : ∀ f ∈ fieldsToExamineOf sortLists idx, ∀ g ∈ fieldsToExamineOf sortLists idx,
      (istatD st f).oid = (istatD st g).oid → f = g) :
    ((∀ f ∈ fieldsToExamineOf sortLists idx, (istatD st f).reduction ≤ minR) →
      simplifyIndex minR sortLists st idx = Except.ok idx)
    ∧ ((∃ f ∈ fieldsToExamineOf sortLists idx, minR < (istatD st f).reduction) →
      ∃ m, IsFirstMaxBy (fun f => (istatD st f).reduction) (fieldsToExamineOf sortLists idx) m
        ∧ minR < (istatD st m).reduction
        ∧ simplifyIndex minR sortLists st idx = Except.ok (removeField idx m)
        ∧ (removeField idx m).keys.length + 1 = idx.keys.length) := by
  have hne1 : (idx.keys.length == 1) = false := by
    simp only [beq_eq_false_iff_ne, ne_eq]
    omega
  have hallcov : (fieldsToExamineOf sortLists idx).all (fun f => (istatFind st f).isSome) = true := by
    rw [List.all_eq_true]
    exact hcov
  have hsi : simplifyIndex minR sortLists st idx
      = Except.ok (simplifyCore minR sortLists st idx) := by
    unfold simplifyIndex
    rw [hne1, hallcov]
    simp
  constructor
  · intro hall
    have hzero : exceedCount minR st (fieldsToExamineOf sortLists idx) = 0 := by
      unfold exceedCount
      exact ((foldl_count_eq_seed minR st (fieldsToExamineOf sortLists idx) 0).2).mpr
        (fun f hf => not_lt_of_le (hall f hf))
    rw [hsi]
    unfold simplifyCore
    rw [hzero]
    simp
  · rintro ⟨f0, hf0, hred⟩
    have hnz : exceedCount minR st (fieldsToExamineOf sortLists idx) ≠ 0 := by
      intro hz
      have := ((foldl_count_eq_seed minR st (fieldsToExamineOf sortLists idx) 0).2).mp hz
      exact this f0 hf0 hred
    obtain ⟨m, husMax, hfm⟩ := usMaxBy_spec (fun f => (istatD st f).reduction)
      (fieldsToExamineOf sortLists idx)
      (fun he => hnz (by rw [he]; rfl))
    obtain ⟨l₁, l₂, hsplit, hlt, hle⟩ := hfm
    have hmmem : m ∈ fieldsToExamineOf sortLists idx := by
      rw [hsplit]
      simp
    have hscan : oidScan st m (fieldsToExamineOf sortLists idx) = some m :=
      ((foldl_oid_scan st m (fieldsToExamineOf sortLists idx) none
        (fun g hg => hinj g hg m hmmem)).1) hmmem
    have hmred : minR < (istatD st m).reduction := by
      rw [hsplit] at hf0
      rcases List.mem_append.mp hf0 with h1 | h2
      · exact lt_trans hred (hlt f0 h1)
      · rcases List.mem_cons.mp h2 with rfl | h2
        · exact hred
        · exact lt_of_lt_of_le hred (hle f0 h2)
    refine ⟨m, ⟨l₁, l₂, hsplit, hlt, hle⟩, hmred, ?_, ?_⟩
    · rw [hsi]
      unfold simplifyCore
      rw [if_neg (by simpa using hnz), husMax]
      dsimp only
      rw [hscan]
    · have hm_in_keys : m ∈ idx.keys.map Prod.fst := by
        have := List.mem_filter.mp hmmem
        exact this.1
      obtain ⟨p, hp, hpm⟩ := List.mem_map.mp hm_in_keys
      have hlenp : (idx.keys.eraseP (fun q => q.1 == m)).length = idx.keys.length - 1 :=
        List.length_eraseP_of_mem hp (by simp [hpm])
      show (idx.keys.eraseP (fun q => q.1 == m)).length + 1 = idx.keys.length
      omega

/-- Witness for (amended) C3 at the concrete two-field index: both behaviors
of the theorem instantiated with all hypotheses discharged. -/
theorem claim_C3_field_elimination_witness :
    1 < c3Index.keys.length
    ∧ (((∀ f ∈ fieldsToExamineOf [] c3Index, (istatD c3Stats f).reduction ≤ 1) →
        simplifyIndex 1 [] c3Stats c3Index = Except.ok c3Index)
      ∧ ((∃ f ∈ fieldsToExamineOf [] c3Index, (1 : Rat) < (istatD c3Stats f).reduction) →
        ∃ m, IsFirstMaxBy (fun f => (istatD c3Stats f).reduction)
            (fieldsToExamineOf [] c3Index) m
          ∧ (1 : Rat) < (istatD c3Stats m).reduction
          ∧ simplifyIndex 1 [] c3Stats c3Index = Except.ok (removeField c3Index m)
          ∧ (removeField c3Index m).keys.length + 1 = c3Index.keys.length)) :=
  ⟨by decide, claim_C3_field_elimination 1 [] c3Stats c3Index (by decide) (by decide) (by decide)⟩

/-- JS property read on an index object modelled as an association list. -/
def objLookup (o : List (String × Int)) (k : String) : Option Int :=
  (o.find? (fun p => p.1 == k)).map Prod.snd

/-- JS property read on a built `MongoIndex` key list. -/
def keyLookup (keys : List (String × IndexEntryVal)) (f : String) : Option IndexEntryVal :=
  (keys.find? (fun p => p.1 == f)).map Prod.snd

/-- The in-place update of `objSet` never changes lookups of other keys. -/
theorem objLookup_map_upd (r : List (String × Int)) (k : String) (v : Int) (k' : String)
    (hk : k' ≠ k) :
    objLookup (r.map (fun p => if p.1 == k then (k, v) else p)) k' = objLookup r k' := by
  induction r with
  | nil => rfl
  | cons x t ih =>
    unfold objLookup at ih ⊢
    rw [List.map_cons]
    by_cases hx : x.1 = k
    · rw [if_pos (by simp [hx])]
      rw [List.find?_cons_of_neg _ (by simp; exact fun h => hk h.symm)]
      rw [List.find?_cons_of_neg _ (by simp [hx]; exact fun h => hk h.symm)]
      exact ih
    · rw [if_neg (by simp [hx])]
      by_cases hx' : x.1 = k'
      · rw [List.find?_cons_of_pos _ (by simp [hx']), List.find?_cons_of_pos _ (by simp [hx'])]
      · rw [List.find?_cons_of_neg _ (by simp [hx']), List.find?_cons_of_neg _ (by simp [hx'])]
        exact ih

/-- `objSet` semantics on lookups: the assigned key reads back the value,
every other key is untouched. -/
theorem objLookup_objSet (o : List (String × Int)) (k : String) (v : Int) (k' : String) :
    objLookup (objSet o k v) k' = if k' = k then some v else objLookup o k' := by
  unfold objSet
  by_cases h : o.any (fun p => p.1 == k)
  · rw [if_pos h]
    by_cases hk : k' = k
    · subst hk
      rw [if_pos rfl]
      induction o with
      | nil => simp at h
      | cons x t ih =>
        rw [List.any_cons] at h
        unfold objLookup
        rw [List.map_cons]
        by_cases hx : x.1 = k'
        · rw [if_pos (by simp [hx])]
          rw [List.find?_cons_of_pos _ (by simp)]
          rfl
        · rw [if_neg (by simp [hx])]
          rw [List.find?_cons_of_neg _ (by simp [hx])]
          have h' : t.any (fun p => p.1 == k') = true := by
            rcases Bool.or_eq_true_iff.mp h with h1 | h2
            · exact absurd (by simpa using h1) hx
            · exact h2
          exact ih h'
    · rw [if_neg hk]
      exact objLookup_map_upd o k v k' hk
  · rw [if_neg h]
    unfold objLookup
    rw [List.find?_append]
    by_cases hk : k' = k
    · subst hk
      have hnone : List.find? (fun p => p.1 == k') o = none := by
        apply List.find?_eq_none.mpr
        intro p hp hpk
        apply h
        rw [List.any_eq_true]
        exact ⟨p, hp, hpk⟩
      rw [if_pos rfl, hnone]
      simp [List.find?_cons]
    · rw [if_neg hk]
      have h2 : List.find? (fun p => p.1 == k') [(k, v)] = none := by
        apply List.find?_eq_none.mpr
        intro p hp hpk
        have hpe : p = (k, v) := by simpa using hp
        rw [hpe] at hpk
        have : k = k' := by simpa using hpk
        exact hk this.symm
      rw [h2]
      simp

/-- Folding assignments whose keys avoid `k` leaves `k`'s lookup unchanged. -/
theorem objLookup_foldl_absent (entries : List (String × Int)) (o : List (String × Int))
    (k : String) (hk : k ∉ entries.map Prod.fst) :
    objLookup (entries.foldl (fun o p => objSet o p.1 p.2) o) k = objLookup o k := by
  induction entries generalizing o with
  | nil => rfl
  | cons e r ih =>
    rw [List.foldl_cons]
    rw [List.map_cons] at hk
    have hke : k ≠ e.1 := fun h => hk (h ▸ List.mem_cons_self _ _)
    rw [ih _ (fun h => hk (List.mem_cons_of_mem _ h)), objLookup_objSet, if_neg hke]

/-- Folding assignments with pairwise-distinct keys makes each entry readable
back. -/
theorem objLookup_foldl_mem (entries : List (String × Int)) (o : List (String × Int))
    (hn : (entries.map Prod.fst).Nodup) (p : String × Int) (hp : p ∈ entries) :
    objLookup (entries.foldl (fun o q => objSet o q.1 q.2) o) p.1 = some p.2 := by
  induction entries generalizing o with
  | nil => exact absurd hp (List.not_mem_nil p)
  | cons e r ih =>
    rw [List.map_cons, List.nodup_cons] at hn
    rw [List.foldl_cons]
    rcases List.mem_cons.mp hp with rfl | hp
    · rw [objLookup_foldl_absent r _ p.1 hn.1, objLookup_objSet, if_pos rfl]
    · exact ih _ hn.2 hp

/-- `usSortBy` preserves membership (it permutes the list). -/
theorem mem_usSortBy {α : Type} (key : α → Int) (a : α) (l : List α) :
    a ∈ usSortBy key l ↔ a ∈ l := by
  unfold usSortBy
  constructor
  · intro h
    obtain ⟨p, hp, rfl⟩ := List.mem_map.mp h
    have hpe : p ∈ l.enum := ((List.perm_insertionSort _ _).mem_iff).mp hp
    have := List.mem_map_of_mem Prod.snd hpe
    rwa [List.enum_map_snd] at this
  · intro h
    have h2 : a ∈ (l.enum).map Prod.snd := by
      rw [List.enum_map_snd]
      exact h
    obtain ⟨p, hp, rfl⟩ := List.mem_map.mp h2
    exact List.mem_map_of_mem _ (((List.perm_insertionSort _ _).mem_iff).mpr hp)

/-- When every sort key has normal mode, the hash filter keeps the whole sort
object. -/
theorem sortAfterHash_all_normal (st : KeyStatistics) (prof : QueryProfile)
    (hnormal : ∀ p ∈ prof.sort, (statD st p.1).mode = FieldMode.normal) :
    sortAfterHash st prof = prof.sort := by
  unfold sortAfterHash
  apply List.filter_eq_self.mpr
  intro p hp
  simp only [decide_eq_true_eq]
  intro hmem
  have h2 := (List.mem_filter.mp hmem).2
  rw [hnormal p hp] at h2
  simp at h2

/-- A field surviving the range-side filters is one of the profile's range
fields. -/
theorem mem_range_of_mem_rangeAfterHash (minC : Int) (st : KeyStatistics)
    (prof : QueryProfile) (f : String) (h : f ∈ rangeAfterHash minC st prof) :
    f ∈ prof.range := by
  have h1 := (List.mem_filter.mp h).1
  have h2 : f ∈ sortedRangeFields st prof := by
    unfold keptRangeFields at h1
    split at h1
    · exact h1
    · exact (List.mem_filter.mp h1).1
  unfold sortedRangeFields at h2
  exact (mem_usSortBy _ f _).mp h2

/-- Folding single-direction (`index[field] = 1`) assignments over fields that
avoid `k` leaves `k`'s lookup unchanged. -/
theorem objLookup_foldl_one_absent (fields : List String) (o : List (String × Int))
    (k : String) (hk : k ∉ fields) :
    objLookup (fields.foldl (fun o f => objSet o f 1) o) k = objLookup o k := by
  induction fields generalizing o with
  | nil => rfl
  | cons f r ih =>
    rw [List.foldl_cons]
    have hkf : k ≠ f := fun h => hk (h ▸ List.mem_cons_self _ _)
    rw [ih _ (fun h => hk (List.mem_cons_of_mem _ h)), objLookup_objSet, if_neg hkf]

/-- Reading a built index's key list through the `num` injection agrees with
reading the underlying object. -/
theorem keyLookup_map_num (o : List (String × Int)) (f : String) :
    keyLookup (o.map (fun p => (p.1, IndexEntryVal.num p.2))) f
      = (objLookup o f).map IndexEntryVal.num := by
  induction o with
  | nil => rfl
  | cons x t ih =>
    unfold keyLookup objLookup at ih ⊢
    rw [List.map_cons]
    by_cases hx : x.1 = f
    · rw [List.find?_cons_of_pos _ (by simp [hx]), List.find?_cons_of_pos _ (by simp [hx])]
      rfl
    · rw [List.find?_cons_of_neg _ (by simp [hx]), List.find?_cons_of_neg _ (by simp [hx])]
      exact ih

/-- Claim C8: for a profile with a non-empty sort whose keys all survive the
hash filter (normal mode), whose directions are `±1` (the data model for sort
directions), with at most one array prefix among the remaining fields (so the
split is skipped), distinct sort keys, and sort keys disjoint from the range
fields, the single produced compound index stores every sort field with its
direction multiplied by the first sort key's direction, so the first sort
key's stored direction is `+1`. -/
theorem claim_C8_sort_canonicalization (minC : Int) (st : KeyStatistics)
    (ns : String) (exa : List String) (f₀ : String) (d₀ : Int)
    (rest : List (String × Int)) (ran : List String)
    (hdir : ∀ p ∈ (f₀, d₀) :: rest, p.2 = 1 ∨ p.2 = -1)
    (hnormal : ∀ p ∈ (f₀, d₀) :: rest,
      (statD st p.1).mode = FieldMode.normal)
    (hkeys : (((f₀, d₀) :: rest).map Prod.fst).Nodup)
    (hap : (arrayPrefixList minC st ⟨ns, exa, (f₀, d₀) :: rest, ran⟩).length < 2)
    (hdisj : ∀ p ∈ (f₀, d₀) :: rest, p.1 ∉ ran) :
    ∃ I, optimizedCompounds minC st ⟨ns, exa, (f₀, d₀) :: rest, ran⟩ = [I]
      ∧ (∀ p ∈ (f₀, d₀) :: rest,
          keyLookup I.keys p.1 = some (IndexEntryVal.num (p.2 * d₀)))
      ∧ keyLookup I.keys f₀ = some (IndexEntryVal.num 1) := by
  set P : QueryProfile := ⟨ns, exa, (f₀, d₀) :: rest, ran⟩ with hP
  have hsa : sortAfterHash st P = (f₀, d₀) :: rest :=
    sortAfterHash_all_normal st P hnormal
  have hbr : branchList minC st P = [none] := by
    unfold branchList
    rw [if_pos hap]
  have hobj : branchIndexObj minC st P none
      = (rangeAfterHash minC st P).foldl (fun o f => objSet o f 1)
          ((((f₀, d₀) :: rest).map (fun q => (q.1, q.2 * d₀))).foldl
            (fun o q => objSet o q.1 q.2)
            ((exactAfterHash minC st P).foldl (fun o f => objSet o f 1) [])) := by
    unfold branchIndexObj
    rw [hsa]
  have hlook : ∀ p ∈ (f₀, d₀) :: rest,
      objLookup (branchIndexObj minC st P none) p.1 = some (p.2 * d₀) := by
    intro p hp
    rw [hobj]
    rw [objLookup_foldl_one_absent _ _ _
      (fun hmem => hdisj p hp (mem_range_of_mem_rangeAfterHash minC st P p.1 hmem))]
    exact objLookup_foldl_mem _ _ (by simpa using hkeys) (p.1, p.2 * d₀)
      (List.mem_map.mpr ⟨p, hp, rfl⟩)
  have hne : (branchIndexObj minC st P none).isEmpty = false := by
    have h0 := hlook (f₀, d₀) (List.mem_cons_self _ _)
    cases hcase : branchIndexObj minC st P none with
    | nil =>
      rw [hcase] at h0
      simp [objLookup] at h0
    | cons x t => rfl
  refine ⟨⟨0, (branchIndexObj minC st P none).map (fun q => (q.1, IndexEntryVal.num q.2)),
    collectionNameOf P.nspace, ""⟩, ?_, ?_, ?_⟩
  · unfold optimizedCompounds
    rw [hbr]
    rw [List.filterMap_cons, List.filterMap_nil]
    dsimp only
    rw [hne]
    rfl
  · intro p hp
    dsimp only
    rw [keyLookup_map_num, hlook p hp]
    rfl
  · dsimp only
    rw [keyLookup_map_num, hlook (f₀, d₀) (List.mem_cons_self _ _)]
    rcases hdir (f₀, d₀) (List.mem_cons_self _ _) with h1 | h1 <;>
      simp only at h1 <;> rw [h1] <;> rfl

/-- Statistics for the C8 witness profile. -/
def c8Stats : KeyStatistics :=
  [("b", ⟨FieldMode.normal, 100, 1, []⟩), ("c", ⟨FieldMode.normal, 10, 1, []⟩),
   ("s", ⟨FieldMode.normal, 5, 1, []⟩), ("t", ⟨FieldMode.normal, 4, 1, []⟩),
   ("r", ⟨FieldMode.normal, 7, 1, []⟩)]

/-- Witness for C8 at a concrete profile with sort `s:-1, t:1`. -/
theorem claim_C8_sort_canonicalization_witness :
    ∃ I, optimizedCompounds 3 c8Stats ⟨"db.users", ["b", "c"], [("s", -1), ("t", 1)], ["r"]⟩ = [I]
      ∧ (∀ p ∈ [("s", (-1 : Int)), ("t", 1)],
          keyLookup I.keys p.1 = some (IndexEntryVal.num (p.2 * -1)))
      ∧ keyLookup I.keys "s" = some (IndexEntryVal.num 1) :=
  claim_C8_sort_canonicalization 3 c8Stats "db.users" ["b", "c"] "s" (-1) [("t", 1)] ["r"]
    (by decide) (by decide) (by decide) (by decide) (by decide)

/-- In a duplicate-free list, the index of the element at position `i` is
`i`. -/
theorem indexOf_of_getElem? {α : Type} [DecidableEq α] (l : List α) (i : Nat) (a : α)
    (h : l.Nodup) (hi : l[i]? = some a) : List.indexOf a l = i := by
  induction l generalizing i with
  | nil => simp at hi
  | cons x t ih =>
    rw [List.nodup_cons] at h
    cases i with
    | zero =>
      have hax : x = a := by simpa using hi
      subst hax
      simp [List.indexOf_cons]
    | succ j =>
      have hj : t[j]? = some a := by simpa using hi
      have hat : a ∈ t := by
        have := List.getElem?_eq_some_iff.mp hj
        obtain ⟨hlt, hget⟩ := this
        exact hget ▸ List.getElem_mem _
      have hax : (x == a) = false := by
        simp only [beq_eq_false_iff_ne, ne_eq]
        intro hxa
        exact h.1 (hxa ▸ hat)
      rw [List.indexOf_cons, hax]
      simp only [cond_false]
      rw [ih j h.2 hj]

/-- `usSortBy` permutes its input. -/
theorem usSortBy_perm {α : Type} (key : α → Int) (l : List α) :
    (usSortBy key l).Perm l := by
  unfold usSortBy
  have h2 := (List.perm_insertionSort (sortByRel key) l.enum).map Prod.snd
  rwa [List.enum_map_snd] at h2

/-- The stable-sort contract of `usSortBy` on a duplicate-free list: the
output is pairwise ordered by criterion, with ties in original order. -/
theorem usSortBy_pairwise {α : Type} [DecidableEq α] (key : α → Int) (l : List α)
    (hn : l.Nodup) :
    (usSortBy key l).Pairwise (fun a b =>
      key a < key b ∨ (key a = key b ∧ List.indexOf a l < List.indexOf b l)) := by
  unfold usSortBy
  rw [List.pairwise_map]
  have henum_nodup : l.enum.Nodup := by
    apply List.Nodup.of_map Prod.fst
    rw [List.enum_map_fst]
    exact List.nodup_range _
  have hsorted : (l.enum.insertionSort (sortByRel key)).Pairwise (sortByRel key) :=
    List.sorted_insertionSort _ _
  have hnd : (l.enum.insertionSort (sortByRel key)).Nodup :=
    ((List.perm_insertionSort _ _).nodup_iff).mpr henum_nodup
  have hcomb := hsorted.and hnd
  apply List.Pairwise.imp_of_mem _ hcomb
  intro p q hp hq hpq
  obtain ⟨hrel, hne⟩ := hpq
  have hpe : p ∈ l.enum := ((List.perm_insertionSort _ _).mem_iff).mp hp
  have hqe : q ∈ l.enum := ((List.perm_insertionSort _ _).mem_iff).mp hq
  have hpg : l[p.1]? = some p.2 := List.mem_enum_iff_getElem?.mp hpe
  have hqg : l[q.1]? = some q.2 := List.mem_enum_iff_getElem?.mp hqe
  rcases hrel with hlt | ⟨heq, hle⟩
  · exact Or.inl hlt
  · refine Or.inr ⟨heq, ?_⟩
    have hne1 : p.1 ≠ q.1 := by
      intro h1
      apply hne
      have : some p.2 = some q.2 := by rw [← hpg, ← hqg, h1]
      exact Prod.ext h1 (by simpa using this)
    rw [indexOf_of_getElem? l p.1 p.2 hn hpg, indexOf_of_getElem? l q.1 q.2 hn hqg]
    omega

/-- Folding key-distinct fresh assignments appends them. -/
theorem foldl_objSet_append (entries : List (String × Int)) (o : List (String × Int))
    (hn : (entries.map Prod.fst).Nodup)
    (hd : ∀ k ∈ entries.map Prod.fst, k ∉ o.map Prod.fst) :
    entries.foldl (fun o q => objSet o q.1 q.2) o = o ++ entries := by
  induction entries generalizing o with
  | nil => simp
  | cons e r ih =>
    rw [List.map_cons, List.nodup_cons] at hn
    rw [List.foldl_cons]
    have hany : o.any (fun p => p.1 == e.1) = false := by
      rw [Bool.eq_false_iff, ne_eq, List.any_eq_true]
      rintro ⟨p, hp, hpk⟩
      exact hd e.1 (by simp) (List.mem_map.mpr ⟨p, hp, by simpa using hpk⟩)
    have hset : objSet o e.1 e.2 = o ++ [(e.1, e.2)] := by
      unfold objSet
      rw [hany]
      simp
    rw [hset]
    have hr := ih (o ++ [(e.1, e.2)]) hn.2 ?_
    · rw [hr]
      simp
    · intro k hk
      rw [List.map_append]
      intro hmem
      rcases List.mem_append.mp hmem with h1 | h2
      · exact hd k (by simp [hk]) h1
      · have : k = e.1 := by simpa using h2
        exact hn.1 (this ▸ hk)

/-- Folding `index[field] = 1` assignments over fresh, distinct fields appends
the corresponding unit entries. -/
theorem foldl_objSet_one_append (fields : List String) (o : List (String × Int))
    (hn : fields.Nodup) (hd : ∀ k ∈ fields, k ∉ o.map Prod.fst) :
    fields.foldl (fun o f => objSet o f 1) o
      = o ++ fields.map (fun f => (f, (1 : Int))) := by
  have h1 : fields.foldl (fun o f => objSet o f 1) o
      = (fields.map (fun f => (f, (1 : Int)))).foldl (fun o q => objSet o q.1 q.2) o := by
    rw [List.foldl_map]
  rw [h1]
  apply foldl_objSet_append
  · rw [List.map_map]
    have he : (Prod.fst ∘ fun f : String => (f, (1 : Int))) = (id : String → String) := rfl
    rw [he, List.map_id]
    exact hn
  · intro k hk
    rw [List.map_map] at hk
    have he : (Prod.fst ∘ fun f : String => (f, (1 : Int))) = (id : String → String) := rfl
    rw [he, List.map_id] at hk
    exact hd k hk

/-- A field surviving the exact-side filters is one of the profile's exact
fields. -/
theorem mem_exact_of_mem_exactAfterHash (minC : Int) (st : KeyStatistics)
    (prof : QueryProfile) (f : String) (h : f ∈ exactAfterHash minC st prof) :
    f ∈ prof.exact := by
  have h1 := (List.mem_filter.mp h).1
  have h2 : f ∈ sortedExactFields st prof := by
    unfold keptExactFields at h1
    split at h1
    · exact h1
    · exact (List.mem_filter.mp h1).1
  unfold sortedExactFields at h2
  exact (mem_usSortBy _ f _).mp h2

/-- The exact fields surviving all filters form a sublist of the sorted exact
fields. -/
theorem exactAfterHash_sublist (minC : Int) (st : KeyStatistics) (prof : QueryProfile) :
    (exactAfterHash minC st prof).Sublist (sortedExactFields st prof) := by
  unfold exactAfterHash keptExactFields minCardExactFields
  split
  · exact List.filter_sublist _
  · exact (List.filter_sublist _).trans (List.filter_sublist _)

/-- The range fields surviving all filters form a sublist of the sorted range
fields. -/
theorem rangeAfterHash_sublist (minC : Int) (st : KeyStatistics) (prof : QueryProfile) :
    (rangeAfterHash minC st prof).Sublist (sortedRangeFields st prof) := by
  unfold rangeAfterHash keptRangeFields minCardRangeFields
  split
  · exact List.filter_sublist _
  · exact (List.filter_sublist _).trans (List.filter_sublist _)

/-- The ordering required of the exact block: descending cardinality,
ties in the order of the profile's exact list. -/
def descCardRel (st : KeyStatistics) (base : List String) (f g : String) : Prop :=
  (statD st g).cardinality < (statD st f).cardinality
  ∨ ((statD st f).cardinality = (statD st g).cardinality
      ∧ List.indexOf f base < List.indexOf g base)

/-- The ordering required of the range block: ascending cardinality,
ties in the order of the profile's range list. -/
def ascCardRel (st : KeyStatistics) (base : List String) (f g : String) : Prop :=
  (statD st f).cardinality < (statD st g).cardinality
  ∨ ((statD st f).cardinality = (statD st g).cardinality
      ∧ List.indexOf f base < List.indexOf g base)

/-- The sorted exact fields are pairwise in descending-cardinality stable
order. -/
theorem sortedExact_pairwise (st : KeyStatistics) (prof : QueryProfile)
    (hnE : prof.exact.Nodup) :
    (sortedExactFields st prof).Pairwise (descCardRel st prof.exact) := by
  unfold sortedExactFields
  have h := usSortBy_pairwise (fun f => -(statD st f).cardinality) prof.exact hnE
  apply h.imp
  intro a b hab
  dsimp only at hab
  unfold descCardRel
  rcases hab with h1 | ⟨h1, h2⟩
  · left
    omega
  · right
    exact ⟨by omega, h2⟩

/-- The sorted range fields are pairwise in ascending-cardinality stable
order. -/
theorem sortedRange_pairwise (st : KeyStatistics) (prof : QueryProfile)
    (hnR : prof.range.Nodup) :
    (sortedRangeFields st prof).Pairwise (ascCardRel st prof.range) := by
  unfold sortedRangeFields
  have h := usSortBy_pairwise (fun f => (statD st f).cardinality) prof.range hnR
  apply h.imp
  intro a b hab
  dsimp only at hab
  unfold ascCardRel
  rcases hab with h1 | ⟨h1, h2⟩
  · left
    exact h1
  · right
    exact ⟨h1, h2⟩

/-- Mapping `Prod.fst` over key-preserving pair construction gives back the
keys. -/
theorem map_fst_map_pair {β : Type} (g : String → β) (l : List String) :
    (l.map (fun f => (f, g f))).map Prod.fst = l := by
  rw [List.map_map]
  have he : (Prod.fst ∘ fun f : String => (f, g f)) = (id : String → String) := rfl
  rw [he, List.map_id]

/-- Mapping `Prod.fst` over a value-rewriting map gives the original keys. -/
theorem map_fst_map_entry (g : String × Int → Int) (l : List (String × Int)) :
    (l.map (fun p => (p.1, g p))).map Prod.fst = l.map Prod.fst := by
  rw [List.map_map]
  rfl

/-- Keys of the index object built for the skipped-split branch (`[null]`):
the filtered exact fields, then the sort keys, then the filtered range
fields, given the data-model well-formedness of the profile (duplicate-free,
pairwise-disjoint field classes). -/
theorem branchIndexObj_keys_none (minC : Int) (st : KeyStatistics) (prof : QueryProfile)
    (hnE : prof.exact.Nodup) (hnS : (prof.sort.map Prod.fst).Nodup)
    (hnR : prof.range.Nodup)
    (hdES : ∀ f ∈ prof.exact, f ∉ prof.sort.map Prod.fst)
    (hdER : ∀ f ∈ prof.exact, f ∉ prof.range)
    (hdSR : ∀ f ∈ prof.sort.map Prod.fst, f ∉ prof.range) :
    (branchIndexObj minC st prof none).map Prod.fst
      = exactAfterHash minC st prof ++ (sortAfterHash st prof).map Prod.fst
        ++ rangeAfterHash minC st prof := by
  have hmemS : ∀ k ∈ (sortAfterHash st prof).map Prod.fst, k ∈ prof.sort.map Prod.fst :=
    fun k hk => ((List.filter_sublist _).map Prod.fst).subset hk
  have hnE' : (exactAfterHash minC st prof).Nodup :=
    ((exactAfterHash_sublist minC st prof).nodup)
      (((usSortBy_perm _ _).nodup_iff).mpr hnE)
  have hnS' : ((sortAfterHash st prof).map Prod.fst).Nodup :=
    (((List.filter_sublist _).map Prod.fst).nodup) hnS
  have hnR' : (rangeAfterHash minC st prof).Nodup :=
    ((rangeAfterHash_sublist minC st prof).nodup)
      (((usSortBy_perm _ _).nodup_iff).mpr hnR)
  unfold branchIndexObj
  dsimp only
  generalize (match sortAfterHash st prof with | [] => (1 : Int) | (_, d) :: _ => d) = ng
  have hEfold : List.foldl (fun o f => objSet o f 1) [] (exactAfterHash minC st prof)
      = (exactAfterHash minC st prof).map (fun f => (f, (1 : Int))) := by
    have h := foldl_objSet_one_append (exactAfterHash minC st prof) [] hnE' (by simp)
    simpa using h
  rw [hEfold]
  have hSfold : List.foldl (fun o p => objSet o p.1 p.2)
      ((exactAfterHash minC st prof).map (fun f => (f, (1 : Int))))
      ((sortAfterHash st prof).map (fun p => (p.1, p.2 * ng)))
      = (exactAfterHash minC st prof).map (fun f => (f, (1 : Int)))
        ++ (sortAfterHash st prof).map (fun p => (p.1, p.2 * ng)) := by
    apply foldl_objSet_append
    · rw [map_fst_map_entry (fun p => p.2 * ng)]
      exact hnS'
    · intro k hk
      rw [map_fst_map_entry (fun p => p.2 * ng)] at hk
      rw [map_fst_map_pair]
      intro hmem
      exact hdES k (mem_exact_of_mem_exactAfterHash minC st prof k hmem) (hmemS k hk)
  rw [hSfold]
  have hRfold : List.foldl (fun o f => objSet o f 1)
      ((exactAfterHash minC st prof).map (fun f => (f, (1 : Int)))
        ++ (sortAfterHash st prof).map (fun p => (p.1, p.2 * ng)))
      (rangeAfterHash minC st prof)
      = ((exactAfterHash minC st prof).map (fun f => (f, (1 : Int)))
          ++ (sortAfterHash st prof).map (fun p => (p.1, p.2 * ng)))
        ++ (rangeAfterHash minC st prof).map (fun f => (f, (1 : Int))) := by
    apply foldl_objSet_one_append _ _ hnR'
    intro k hk
    have hkr : k ∈ prof.range := mem_range_of_mem_rangeAfterHash minC st prof k hk
    rw [List.map_append, map_fst_map_pair, map_fst_map_entry (fun p => p.2 * ng)]
    intro hmem
    rcases List.mem_append.mp hmem with h1 | h2
    · exact hdER k (mem_exact_of_mem_exactAfterHash minC st prof k h1) hkr
    · exact hdSR k (hmemS k h2) hkr
  rw [hRfold]
  rw [List.map_append, List.map_append, map_fst_map_pair, map_fst_map_pair,
    map_fst_map_entry (fun p => p.2 * ng)]

/-- Keys of the index object built for one array-prefix branch when the
(hash-filtered) sort object is empty: the branch-filtered exact fields, then
the branch-filtered range fields. -/
theorem branchIndexObj_keys_some (minC : Int) (st : KeyStatistics) (prof : QueryProfile)
    (p : String) (hsF : sortAfterHash st prof = [])
    (hnE : prof.exact.Nodup) (hnR : prof.range.Nodup)
    (hdER : ∀ f ∈ prof.exact, f ∉ prof.range) :
    (branchIndexObj minC st prof (some p)).map Prod.fst
      = (exactAfterHash minC st prof).filter
          (fun f => (statD st f).arrayPrefixes.isEmpty
            || !((statD st f).arrayPrefixes.contains p))
        ++ (rangeAfterHash minC st prof).filter
          (fun f => (statD st f).arrayPrefixes.isEmpty
            || !((statD st f).arrayPrefixes.contains p)) := by
  have hnE' : ((exactAfterHash minC st prof).filter
      (fun f => (statD st f).arrayPrefixes.isEmpty
        || !((statD st f).arrayPrefixes.contains p))).Nodup :=
    (List.filter_sublist _).nodup
      (((exactAfterHash_sublist minC st prof).nodup)
        (((usSortBy_perm _ _).nodup_iff).mpr hnE))
  have hnR' : ((rangeAfterHash minC st prof).filter
      (fun f => (statD st f).arrayPrefixes.isEmpty
        || !((statD st f).arrayPrefixes.contains p))).Nodup :=
    (List.filter_sublist _).nodup
      (((rangeAfterHash_sublist minC st prof).nodup)
        (((usSortBy_perm _ _).nodup_iff).mpr hnR))
  unfold branchIndexObj
  dsimp only
  rw [hsF]
  simp only [List.map_nil, List.filter_nil, List.enum_nil, List.foldl_nil]
  have hEfold : List.foldl (fun o f => objSet o f 1) []
      ((exactAfterHash minC st prof).filter
        (fun f => (statD st f).arrayPrefixes.isEmpty
          || !((statD st f).arrayPrefixes.contains p)))
      = ((exactAfterHash minC st prof).filter
          (fun f => (statD st f).arrayPrefixes.isEmpty
            || !((statD st f).arrayPrefixes.contains p))).map (fun f => (f, (1 : Int))) := by
    have h := foldl_objSet_one_append _ [] hnE' (by simp)
    simpa using h
  rw [hEfold]
  have hRfold : List.foldl (fun o f => objSet o f 1)
      (((exactAfterHash minC st prof).filter
        (fun f => (statD st f).arrayPrefixes.isEmpty
          || !((statD st f).arrayPrefixes.contains p))).map (fun f => (f, (1 : Int))))
      ((rangeAfterHash minC st prof).filter
        (fun f => (statD st f).arrayPrefixes.isEmpty
          || !((statD st f).arrayPrefixes.contains p)))
      = ((exactAfterHash minC st prof).filter
          (fun f => (statD st f).arrayPrefixes.isEmpty
            || !((statD st f).arrayPrefixes.contains p))).map (fun f => (f, (1 : Int)))
        ++ ((rangeAfterHash minC st prof).filter
          (fun f => (statD st f).arrayPrefixes.isEmpty
            || !((statD st f).arrayPrefixes.contains p))).map (fun f => (f, (1 : Int))) := by
    apply foldl_objSet_one_append _ _ hnR'
    intro k hk
    have hkr : k ∈ prof.range := mem_range_of_mem_rangeAfterHash minC st prof k
      ((List.filter_sublist _).subset hk)
    rw [map_fst_map_pair]
    intro hmem
    exact hdER k (mem_exact_of_mem_exactAfterHash minC st prof k
      ((List.filter_sublist _).subset hmem)) hkr
  rw [hRfold]
  rw [List.map_append, map_fst_map_pair, map_fst_map_pair]

/-- The ordering contract for one produced compound index: its field list
splits into an exact block, a sort block, and a range block, with the exact
block stably sorted by descending cardinality and the range block stably
sorted by ascending cardinality. -/
def ordContract (st : KeyStatistics) (prof : QueryProfile) (I : MongoIndex) : Prop :=
  ∃ e s r, I.keys.map Prod.fst = e ++ s ++ r
    ∧ (∀ f ∈ e, f ∈ prof.exact)
    ∧ (∀ f ∈ s, f ∈ prof.sort.map Prod.fst)
    ∧ (∀ f ∈ r, f ∈ prof.range)
    ∧ e.Pairwise (descCardRel st prof.exact)
    ∧ r.Pairwise (ascCardRel st prof.range)

/-- Claim C7: every optimized compound index satisfies the ordering contract:
exact-match fields first in descending-cardinality stable order, then sort
fields, then range fields in ascending-cardinality stable order.  Hypotheses:
the profile's three field classes are duplicate-free and pairwise disjoint
(the data model of a decomposed query), and either the parallel-array split
is skipped or no sort key survives the hash filter (with two or more array
prefixes and a surviving sort the getter throws instead of producing). -/
theorem claim_C7_ordering_contract (minC : Int) (st : KeyStatistics) (prof : QueryProfile)
    (hnE : prof.exact.Nodup) (hnS : (prof.sort.map Prod.fst).Nodup)
    (hnR : prof.range.Nodup)
    (hdES : ∀ f ∈ prof.exact, f ∉ prof.sort.map Prod.fst)
    (hdER : ∀ f ∈ prof.exact, f ∉ prof.range)
    (hdSR : ∀ f ∈ prof.sort.map Prod.fst, f ∉ prof.range)
    (hbr : (arrayPrefixList minC st prof).length < 2 ∨ sortAfterHash st prof = []) :
    ∀ I ∈ optimizedCompounds minC st prof, ordContract st prof I := by
  intro I hI
  unfold optimizedCompounds at hI
  obtain ⟨ap, hapmem, hIeq⟩ := List.mem_filterMap.mp hI
  dsimp only at hIeq
  by_cases hempty : (branchIndexObj minC st prof ap).isEmpty = true
  · rw [if_pos hempty] at hIeq
    exact absurd hIeq (by simp)
  · rw [if_neg hempty] at hIeq
    have hIval := Option.some.inj hIeq
    subst hIval
    have hkeys : ((branchIndexObj minC st prof ap).map
          (fun q => (q.1, IndexEntryVal.num q.2))).map Prod.fst
        = (branchIndexObj minC st prof ap).map Prod.fst := by
      rw [List.map_map]
      rfl
    cases ap with
    | none =>
      refine ⟨exactAfterHash minC st prof, (sortAfterHash st prof).map Prod.fst,
        rangeAfterHash minC st prof, ?_, ?_, ?_, ?_, ?_, ?_⟩
      · exact hkeys.trans
          (branchIndexObj_keys_none minC st prof hnE hnS hnR hdES hdER hdSR)
      · exact fun f hf => mem_exact_of_mem_exactAfterHash minC st prof f hf
      · exact fun f hf => ((List.filter_sublist _).map Prod.fst).subset hf
      · exact fun f hf => mem_range_of_mem_rangeAfterHash minC st prof f hf
      · exact List.Pairwise.sublist (exactAfterHash_sublist minC st prof)
          (sortedExact_pairwise st prof hnE)
      · exact List.Pairwise.sublist (rangeAfterHash_sublist minC st prof)
          (sortedRange_pairwise st prof hnR)
    | some p =>
      have hsF : sortAfterHash st prof = [] := by
        rcases hbr with h1 | h2
        · exfalso
          unfold branchList at hapmem
          rw [if_pos h1] at hapmem
          simp at hapmem
        · exact h2
      refine ⟨(exactAfterHash minC st prof).filter
          (fun f => (statD st f).arrayPrefixes.isEmpty
            || !((statD st f).arrayPrefixes.contains p)),
        [],
        (rangeAfterHash minC st prof).filter
          (fun f => (statD st f).arrayPrefixes.isEmpty
            || !((statD st f).arrayPrefixes.contains p)), ?_, ?_, ?_, ?_, ?_, ?_⟩
      · rw [List.append_nil]
        exact hkeys.trans (branchIndexObj_keys_some minC st prof p hsF hnE hnR hdER)
      · exact fun f hf => mem_exact_of_mem_exactAfterHash minC st prof f
          ((List.filter_sublist _).subset hf)
      · intro f hf
        exact absurd hf (List.not_mem_nil f)
      · exact fun f hf => mem_range_of_mem_rangeAfterHash minC st prof f
          ((List.filter_sublist _).subset hf)
      · exact List.Pairwise.sublist
          ((List.filter_sublist _).trans (exactAfterHash_sublist minC st prof))
          (sortedExact_pairwise st prof hnE)
      · exact List.Pairwise.sublist
          ((List.filter_sublist _).trans (rangeAfterHash_sublist minC st prof))
          (sortedRange_pairwise st prof hnR)

/-- Statistics for the C7 witness profile (cardinalities a:2, b:100, c:10,
s:5, t:4, r:7, all normal, no arrays). -/
def c7Stats : KeyStatistics :=
  [("a", ⟨FieldMode.normal, 2, 1, []⟩), ("b", ⟨FieldMode.normal, 100, 1, []⟩),
   ("c", ⟨FieldMode.normal, 10, 1, []⟩), ("s", ⟨FieldMode.normal, 5, 1, []⟩),
   ("t", ⟨FieldMode.normal, 4, 1, []⟩), ("r", ⟨FieldMode.normal, 7, 1, []⟩)]

/-- The C7 witness profile. -/
def c7Profile : QueryProfile := ⟨"db.users", ["a", "b", "c"], [("s", -1), ("t", 1)], ["r"]⟩

/-- The single compound index the C7 witness profile produces. -/
def c7Compound : MongoIndex :=
  ⟨0, [("b", IndexEntryVal.num 1), ("c", IndexEntryVal.num 1), ("s", IndexEntryVal.num 1),
    ("t", IndexEntryVal.num (-1)), ("r", IndexEntryVal.num 1)], "users", ""⟩

/-- Witness for C7 at a concrete profile exercising all three blocks. -/
theorem claim_C7_ordering_contract_witness :
    optimizedCompounds 3 c7Stats c7Profile = [c7Compound] ∧
      ordContract c7Stats c7Profile c7Compound := by
  have he : optimizedCompounds 3 c7Stats c7Profile = [c7Compound] := rfl
  refine ⟨he, claim_C7_ordering_contract 3 c7Stats c7Profile (by decide) (by decide)
    (by decide) (by decide) (by decide) (by decide) (Or.inl (by decide)) c7Compound ?_⟩
  rw [he]
  exact List.mem_singleton.mpr rfl

/-- Loose value equality is equality on the index-value domain. -/
theorem jsValEq_iff (v w : IndexEntryVal) : jsValEq v w = true ↔ v = w := by
  cases v <;> cases w <;> simp [jsValEq]

/-- For equal-length entry lists, the pointwise comparison decides equality. -/
theorem entriesMatch_eq : ∀ (xs ys : List (String × IndexEntryVal)),
    xs.length = ys.length → (entriesMatch xs ys = true ↔ xs = ys) := by
  intro xs
  induction xs with
  | nil =>
    intro ys hlen
    cases ys with
    | nil => simp [entriesMatch]
    | cons y t => simp at hlen
  | cons x r ih =>
    intro ys hlen
    cases ys with
    | nil => simp at hlen
    | cons y t =>
      obtain ⟨k, v⟩ := x
      obtain ⟨k', v'⟩ := y
      rw [entriesMatch]
      simp only [Bool.and_eq_true, beq_iff_eq]
      rw [jsValEq_iff, ih t (by simpa using hlen)]
      constructor
      · rintro ⟨⟨rfl, rfl⟩, rfl⟩
        rfl
      · intro h
        injection h with h1 h2
        injection h1 with hk hv
        exact ⟨⟨hk, hv⟩, h2⟩

/-- `isSameAs` holds exactly on indexes with equal ordered key lists. -/
theorem isSameAs_iff (a b : MongoIndex) : isSameAs a b = true ↔ a.keys = b.keys := by
  unfold isSameAs
  simp only [Bool.and_eq_true, beq_iff_eq]
  constructor
  · rintro ⟨hlen, hm⟩
    exact (entriesMatch_eq _ _ hlen).mp hm
  · intro h
    rw [h]
    exact ⟨rfl, (entriesMatch_eq _ _ rfl).mpr rfl⟩

/-- A strict index-prefix is never the same index. -/
theorem isSameAs_false_of_pfx (a b : MongoIndex) (h : isIndexPrefixOf a b = true) :
    isSameAs a b = false := by
  unfold isIndexPrefixOf keysPrefixOf at h
  rw [Bool.and_eq_true, decide_eq_true_eq] at h
  rw [Bool.eq_false_iff, ne_eq, isSameAs_iff]
  intro hk
  rw [hk] at h
  omega

/-- `isIndexPrefixOf` depends only on the two key lists. -/
theorem isIndexPrefixOf_keys (a b a' b' : MongoIndex) (ha : a.keys = a'.keys)
    (hb : b.keys = b'.keys) : isIndexPrefixOf a b = isIndexPrefixOf a' b' := by
  unfold isIndexPrefixOf
  rw [ha, hb]

/-- Two candidate lists carry the same set of key-list contents. -/
def ContentEq (L L' : List MongoIndex) : Prop :=
  (∀ a ∈ L, ∃ b ∈ L', b.keys = a.keys) ∧ (∀ b ∈ L', ∃ a ∈ L, a.keys = b.keys)

theorem ContentEq.refl (L : List MongoIndex) : ContentEq L L :=
  ⟨fun a ha => ⟨a, ha, rfl⟩, fun a ha => ⟨a, ha, rfl⟩⟩

theorem ContentEq.trans {L M N : List MongoIndex} (h1 : ContentEq L M)
    (h2 : ContentEq M N) : ContentEq L N := by
  constructor
  · intro a ha
    obtain ⟨b, hb, hkb⟩ := h1.1 a ha
    obtain ⟨c, hc, hkc⟩ := h2.1 b hb
    exact ⟨c, hc, hkc.trans hkb⟩
  · intro c hc
    obtain ⟨b, hb, hkb⟩ := h2.2 c hc
    obtain ⟨a, ha, hka⟩ := h1.2 b hb
    exact ⟨a, ha, hka.trans hkb⟩

/-- Everything `uniqByStringify` keeps comes from the input. -/
theorem uniqByStringify_subset : ∀ (seen : List (List (String × IndexEntryVal)))
    (L : List MongoIndex), ∀ b ∈ uniqByStringify.go seen L, b ∈ L := by
  intro seen L
  induction L generalizing seen with
  | nil => intro b hb; simp [uniqByStringify.go] at hb
  | cons x r ih =>
    intro b hb
    rw [uniqByStringify.go] at hb
    by_cases hx : x.keys ∈ seen
    · rw [if_pos hx] at hb
      exact List.mem_cons_of_mem _ (ih seen b hb)
    · rw [if_neg hx] at hb
      rcases List.mem_cons.mp hb with rfl | hb
      · exact List.mem_cons_self _ _
      · exact List.mem_cons_of_mem _ (ih _ b hb)

/-- Every input to `uniqByStringify` keeps a representative with the same key
list (or was already represented in `seen`). -/
theorem uniqByStringify_forward : ∀ (seen : List (List (String × IndexEntryVal)))
    (L : List MongoIndex), ∀ a ∈ L,
    a.keys ∈ seen ∨ ∃ b ∈ uniqByStringify.go seen L, b.keys = a.keys := by
  intro seen L
  induction L generalizing seen with
  | nil => intro a ha; exact absurd ha (List.not_mem_nil a)
  | cons x r ih =>
    intro a ha
    rw [uniqByStringify.go]
    by_cases hx : x.keys ∈ seen
    · rw [if_pos hx]
      rcases List.mem_cons.mp ha with rfl | ha
      · exact Or.inl hx
      · exact ih seen a ha
    · rw [if_neg hx]
      rcases List.mem_cons.mp ha with rfl | ha
      · exact Or.inr ⟨_, List.mem_cons_self _ _, rfl⟩
      · rcases ih (x.keys :: seen) a ha with hs | ⟨b, hb, hkb⟩
        · rcases List.mem_cons.mp hs with he | hs
          · exact Or.inr ⟨_, List.mem_cons_self _ _, he.symm⟩
          · exact Or.inl hs
        · exact Or.inr ⟨b, List.mem_cons_of_mem _ hb, hkb⟩

/-- `uniqByStringify` preserves the content set. -/
theorem uniqByStringify_contentEq (L : List MongoIndex) :
    ContentEq L (uniqByStringify L) := by
  constructor
  · intro a ha
    rcases uniqByStringify_forward [] L a ha with hs | h
    · exact absurd hs (List.not_mem_nil _)
    · exact h
  · intro b hb
    exact ⟨b, uniqByStringify_subset [] L b hb, rfl⟩

/-- Every index collected as "the same" really has the same key list. -/
theorem mem_collectSame (a : MongoIndex) (coll : String) (i : Nat) :
    ∀ (j0 : Nat) (qs : List ReducedProfile), ∀ b ∈ collectSameIndexes a coll i j0 qs,
      isSameAs a b = true := by
  intro j0 qs
  induction qs generalizing j0 with
  | nil => intro b hb; simp [collectSameIndexes] at hb
  | cons q rest ih =>
    intro b hb
    rw [collectSameIndexes] at hb
    rcases List.mem_append.mp hb with h1 | h2
    · by_cases hcond : (!(j0 == i) && (q.collectionName == coll)) = true
      · rw [if_pos hcond] at h1
        exact (Bool.and_eq_true _ _ |>.mp (List.mem_filter.mp h1).2).1
      · rw [if_neg hcond] at h1
        exact absurd h1 (List.not_mem_nil b)
    · exact ih (j0 + 1) b h2

/-- The prefix-side filter predicate is just `isIndexPrefixOf` (an index that
is the same as another is never its strict prefix). -/
theorem pre_pred_eq (a b : MongoIndex) (c : Bool) :
    (!(isSameAs a b && c) && isIndexPrefixOf a b) = isIndexPrefixOf a b := by
  cases hpf : isIndexPrefixOf a b
  · simp
  · rw [isSameAs_false_of_pfx a b hpf]
    simp

/-- Positional characterization of an empty prefix collection: no index of any
*other* profile on the same collection extends `a`. -/
theorem collectPre_eq_nil_iff (a : MongoIndex) (coll : String) (i : Nat) :
    ∀ (j0 : Nat) (qs : List ReducedProfile),
    collectPrefixedIndexes a coll i j0 qs = [] ↔
      ∀ k (hk : k < qs.length), ¬(j0 + k = i) →
        (qs.get ⟨k, hk⟩).collectionName = coll →
        ∀ b ∈ (qs.get ⟨k, hk⟩).reducedIndexes, isIndexPrefixOf a b = false := by
  intro j0 qs
  induction qs generalizing j0 with
  | nil =>
    constructor
    · intro _ k hk
      exact absurd hk (by simp)
    · intro _
      rfl
  | cons q rest ih =>
    rw [collectPrefixedIndexes, List.append_eq_nil]
    constructor
    · rintro ⟨h1, h2⟩ k hk hne hcoll b hb
      cases k with
      | zero =>
        simp only [Nat.add_zero] at hne
        have hc : q.collectionName = coll := hcoll
        have hcond : (!(j0 == i) && (q.collectionName == coll)) = true := by
          simp [hne, hc]
        rw [if_pos hcond] at h1
        have hb' : b ∈ q.reducedIndexes := hb
        have hnp := List.filter_eq_nil_iff.mp h1 b hb'
        rw [pre_pred_eq] at hnp
        simpa using hnp
      | succ k' =>
        exact (ih (j0 + 1)).mp h2 k' (by simpa using hk) (by omega) hcoll b hb
    · intro h
      constructor
      · by_cases hcond : (!(j0 == i) && (q.collectionName == coll)) = true
        · rw [if_pos hcond]
          apply List.filter_eq_nil_iff.mpr
          intro b hb
          rw [Bool.and_eq_true] at hcond
          have hne : ¬(j0 + 0 = i) := by
            have := hcond.1
            simp only [Bool.not_eq_true', beq_eq_false_iff_ne, ne_eq] at this
            omega
          have hc : q.collectionName = coll := by
            have := hcond.2
            simpa using this
          have hpf := h 0 (by simp) hne hc b hb
          rw [pre_pred_eq]
          simp [hpf]
        · rw [if_neg hcond]
      · apply (ih (j0 + 1)).mpr
        intro k hk hne hcoll b hb
        exact h (k + 1) (by simpa using hk) (by omega) hcoll b hb

/-- Helper: reading a `List.set` at a different position. -/
theorem rp_get_set_ne {α : Type} (l : List α) (i : Nat) (a : α) (j : Nat)
    (h : j < (l.set i a).length) (hj : j < l.length) (hne : i ≠ j) :
    (l.set i a).get ⟨j, h⟩ = l.get ⟨j, hj⟩ := by
  rw [List.get_eq_getElem, List.get_eq_getElem, List.getElem_set, if_neg hne]

/-- Helper: reading a `List.set` at the written position. -/
theorem rp_get_set_self {α : Type} (l : List α) (i : Nat) (a : α)
    (h : i < (l.set i a).length) : (l.set i a).get ⟨i, h⟩ = a := by
  rw [List.get_eq_getElem, List.getElem_set, if_pos rfl]

/-- The profile record written back after position `i` is processed. -/
def stepProfile (ps : List ReducedProfile) (i : Nat) (h : i < ps.length) : ReducedProfile :=
  ⟨(ps.get ⟨i, h⟩).collectionName,
    uniqByStringify (processProfileIndexes ps i (ps.get ⟨i, h⟩).collectionName
      (ps.get ⟨i, h⟩).reducedIndexes).1⟩

/-- Unfolding `reducePassFrom` at a successor gas value. -/
theorem reducePassFrom_succ (gas : Nat) (ps : List ReducedProfile) (i : Nat) (fl : Bool) :
    reducePassFrom (gas + 1) ps i fl =
      if h : i < ps.length then
        reducePassFrom gas (ps.set i (stepProfile ps i h)) (i + 1)
          (fl || (processProfileIndexes ps i (ps.get ⟨i, h⟩).collectionName
            (ps.get ⟨i, h⟩).reducedIndexes).2)
      else (ps, fl) := rfl

/-- Unfolding `processProfileIndexes` on a non-empty candidate list. -/
theorem processIdxs_cons (ps : List ReducedProfile) (i : Nat) (coll : String)
    (a : MongoIndex) (rest : List MongoIndex) :
    processProfileIndexes ps i coll (a :: rest) =
      (if !(collectPrefixedIndexes a coll i 0 ps).isEmpty then
        (collectPrefixedIndexes a coll i 0 ps ++ (processProfileIndexes ps i coll rest).1,
          true)
      else if !(collectSameIndexes a coll i 0 ps).isEmpty then
        (collectSameIndexes a coll i 0 ps ++ (processProfileIndexes ps i coll rest).1,
          (processProfileIndexes ps i coll rest).2)
      else (a :: (processProfileIndexes ps i coll rest).1,
          (processProfileIndexes ps i coll rest).2)) := rfl

/-- If a profile's pass leaves the change flag clear, every one of its
candidates had an empty prefix collection. -/
theorem processIdxs_false_pre (ps : List ReducedProfile) (i : Nat) (coll : String) :
    ∀ (l : List MongoIndex), (processProfileIndexes ps i coll l).2 = false →
      ∀ b ∈ l, collectPrefixedIndexes b coll i 0 ps = [] := by
  intro l
  induction l with
  | nil =>
    intro _ b hb
    exact absurd hb (List.not_mem_nil b)
  | cons a rest ih =>
    intro hf b hb
    rw [processIdxs_cons] at hf
    by_cases hpe : (!(collectPrefixedIndexes a coll i 0 ps).isEmpty) = true
    · rw [if_pos hpe] at hf
      have h2 : (true : Bool) = false := hf
      exact absurd h2 (by decide)
    · rw [if_neg hpe] at hf
      have hft : (processProfileIndexes ps i coll rest).2 = false := by
        by_cases hse : (!(collectSameIndexes a coll i 0 ps).isEmpty) = true
        · rw [if_pos hse] at hf
          exact hf
        · rw [if_neg hse] at hf
          exact hf
      rcases List.mem_cons.mp hb with rfl | hbr
      · cases h : collectPrefixedIndexes b coll i 0 ps with
        | nil => rfl
        | cons x xs =>
          rw [h] at hpe
          simp at hpe
      · exact ih hft b hbr

/-- If the change flag stays clear, every index of the rewritten candidate
list carries the key list of some original candidate (a kept candidate, or a
same-content replacement from another profile). -/
theorem processIdxs_false_mem (ps : List ReducedProfile) (i : Nat) (coll : String) :
    ∀ (l : List MongoIndex), (processProfileIndexes ps i coll l).2 = false →
      ∀ b ∈ (processProfileIndexes ps i coll l).1, ∃ a ∈ l, b.keys = a.keys := by
  intro l
  induction l with
  | nil =>
    intro _ b hb
    exact absurd hb (List.not_mem_nil b)
  | cons a rest ih =>
    intro hf b hb
    rw [processIdxs_cons] at hf hb
    by_cases hpe : (!(collectPrefixedIndexes a coll i 0 ps).isEmpty) = true
    · rw [if_pos hpe] at hf
      have h2 : (true : Bool) = false := hf
      exact absurd h2 (by decide)
    · rw [if_neg hpe] at hf hb
      by_cases hse : (!(collectSameIndexes a coll i 0 ps).isEmpty) = true
      · rw [if_pos hse] at hf hb
        have hft : (processProfileIndexes ps i coll rest).2 = false := hf
        have hb' : b ∈ collectSameIndexes a coll i 0 ps ++
            (processProfileIndexes ps i coll rest).1 := hb
        rcases List.mem_append.mp hb' with hs | hbt
        · have hsame := mem_collectSame a coll i 0 ps b hs
          exact ⟨a, List.mem_cons_self a rest, ((isSameAs_iff a b).mp hsame).symm⟩
        · obtain ⟨a', ha', hk⟩ := ih hft b hbt
          exact ⟨a', List.mem_cons_of_mem a ha', hk⟩
      · rw [if_neg hse] at hf hb
        have hft : (processProfileIndexes ps i coll rest).2 = false := hf
        have hb' : b ∈ a :: (processProfileIndexes ps i coll rest).1 := hb
        rcases List.mem_cons.mp hb' with rfl | hbt
        · exact ⟨b, List.mem_cons_self b rest, rfl⟩
        · obtain ⟨a', ha', hk⟩ := ih hft b hbt
          exact ⟨a', List.mem_cons_of_mem a ha', hk⟩

/-- A pass started with the change flag already set reports a change. -/
theorem reducePassFrom_true_mono : ∀ (gas : Nat) (ps : List ReducedProfile) (i : Nat),
    (reducePassFrom gas ps i true).2 = true := by
  intro gas
  induction gas with
  | zero =>
    intro ps i
    rfl
  | succ gas ih =>
    intro ps i
    rw [reducePassFrom_succ]
    by_cases h : i < ps.length
    · rw [dif_pos h, Bool.true_or]
      exact ih _ _
    · rw [dif_neg h]

/-- No candidate of one profile is a strict index-prefix of a candidate of a
different profile on the same collection. -/
def pfxFreePair (p q : ReducedProfile) : Prop :=
  p.collectionName = q.collectionName →
  ∀ a ∈ p.reducedIndexes, ∀ b ∈ q.reducedIndexes, isIndexPrefixOf a b = false

/-- Cross-profile prefix freeness of a whole profile list. -/
def noCrossPfx (ps : List ReducedProfile) : Prop :=
  ∀ k (hk : k < ps.length) j (hj : j < ps.length), k ≠ j →
    pfxFreePair (ps.get ⟨k, hk⟩) (ps.get ⟨j, hj⟩)

/-- Loop invariant of a pass: the profiles already processed (positions below
`i`) are prefix-free against every other profile's current candidates. -/
def processedPfxFree (ps : List ReducedProfile) (i : Nat) : Prop :=
  ∀ k (hk : k < ps.length), k < i → ∀ j (hj : j < ps.length), k ≠ j →
    pfxFreePair (ps.get ⟨k, hk⟩) (ps.get ⟨j, hj⟩)

/-- A pass that completes with the change flag clear ends cross-profile
prefix-free, given the invariant for the part already processed. -/
theorem reducePassFrom_false_noCross : ∀ (gas : Nat) (ps : List ReducedProfile) (i : Nat)
    (qs : List ReducedProfile), reducePassFrom gas ps i false = (qs, false) →
    ps.length ≤ gas + i → processedPfxFree ps i → noCrossPfx qs := by
  intro gas
  induction gas with
  | zero =>
    intro ps i qs hres hlen hpre
    have hq : ps = qs := congrArg Prod.fst hres
    subst hq
    intro k hk j hj hkj
    exact hpre k hk (by omega) j hj hkj
  | succ gas ih =>
    intro ps i qs hres hlen hpre
    rw [reducePassFrom_succ] at hres
    by_cases h : i < ps.length
    · rw [dif_pos h, Bool.false_or] at hres
      cases hr2 : (processProfileIndexes ps i (ps.get ⟨i, h⟩).collectionName
          (ps.get ⟨i, h⟩).reducedIndexes).2 with
      | true =>
        rw [hr2] at hres
        have hmono := reducePassFrom_true_mono gas (ps.set i (stepProfile ps i h)) (i + 1)
        rw [hres] at hmono
        simp at hmono
      | false =>
        rw [hr2] at hres
        apply ih (ps.set i (stepProfile ps i h)) (i + 1) qs hres
        · rw [List.length_set]
          omega
        · intro k hk' hki1 j hj' hkj
          have hk : k < ps.length := by
            rw [List.length_set] at hk'
            exact hk'
          have hj : j < ps.length := by
            rw [List.length_set] at hj'
            exact hj'
          have hFpre : ∀ b ∈ (ps.get ⟨i, h⟩).reducedIndexes,
              collectPrefixedIndexes b (ps.get ⟨i, h⟩).collectionName i 0 ps = [] :=
            processIdxs_false_pre ps i (ps.get ⟨i, h⟩).collectionName
              (ps.get ⟨i, h⟩).reducedIndexes hr2
          have hFmem : ∀ b ∈ (stepProfile ps i h).reducedIndexes,
              ∃ a ∈ (ps.get ⟨i, h⟩).reducedIndexes, b.keys = a.keys := by
            intro b hb
            have hb0 : b ∈ uniqByStringify.go []
                (processProfileIndexes ps i (ps.get ⟨i, h⟩).collectionName
                  (ps.get ⟨i, h⟩).reducedIndexes).1 := hb
            have hb1 := uniqByStringify_subset [] _ b hb0
            exact processIdxs_false_mem ps i (ps.get ⟨i, h⟩).collectionName
              (ps.get ⟨i, h⟩).reducedIndexes hr2 b hb1
          rcases Nat.lt_succ_iff_lt_or_eq.mp hki1 with hki | hkeq
          · have hgetk : (ps.set i (stepProfile ps i h)).get ⟨k, hk'⟩ = ps.get ⟨k, hk⟩ :=
              rp_get_set_ne ps i (stepProfile ps i h) k hk' hk (by omega)
            by_cases hji : j = i
            · subst hji
              have hgetj : (ps.set j (stepProfile ps j h)).get ⟨j, hj'⟩ =
                  stepProfile ps j h := rp_get_set_self ps j (stepProfile ps j h) hj'
              rw [hgetk, hgetj]
              intro hcoll a ha b hb
              obtain ⟨b0, hb0, hbk⟩ := hFmem b hb
              have hcoll' : (ps.get ⟨k, hk⟩).collectionName =
                  (ps.get ⟨j, h⟩).collectionName := hcoll
              have hp := hpre k hk hki j h (by omega) hcoll' a ha b0 hb0
              rw [isIndexPrefixOf_keys a b a b0 rfl hbk]
              exact hp
            · have hgetj : (ps.set i (stepProfile ps i h)).get ⟨j, hj'⟩ = ps.get ⟨j, hj⟩ :=
                rp_get_set_ne ps i (stepProfile ps i h) j hj' hj (by omega)
              rw [hgetk, hgetj]
              exact hpre k hk hki j hj hkj
          · subst hkeq
            have hgetk : (ps.set k (stepProfile ps k h)).get ⟨k, hk'⟩ =
                stepProfile ps k h := rp_get_set_self ps k (stepProfile ps k h) hk'
            have hgetj : (ps.set k (stepProfile ps k h)).get ⟨j, hj'⟩ = ps.get ⟨j, hj⟩ :=
              rp_get_set_ne ps k (stepProfile ps k h) j hj' hj (by omega)
            rw [hgetk, hgetj]
            intro hcoll a ha b hb
            obtain ⟨a0, ha0, hak⟩ := hFmem a ha
            have hnil := hFpre a0 ha0
            have hcj : (ps.get ⟨j, hj⟩).collectionName =
                (ps.get ⟨k, h⟩).collectionName := hcoll.symm
            have hcp := (collectPre_eq_nil_iff a0 (ps.get ⟨k, h⟩).collectionName k 0 ps).mp
              hnil j hj (by omega) hcj b hb
            rw [isIndexPrefixOf_keys a b a0 b hak rfl]
            exact hcp
    · rw [dif_neg h] at hres
      have hq : ps = qs := congrArg Prod.fst hres
      subst hq
      intro k hk j hj hkj
      exact hpre k hk (by omega) j hj hkj

/-- A full pass reporting no change ends cross-profile prefix-free. -/
theorem reducePass_false_noCross (ps qs : List ReducedProfile)
    (hres : reducePass ps = (qs, false)) : noCrossPfx qs :=
  reducePassFrom_false_noCross ps.length ps 0 qs hres (by omega)
    (fun k _ hk0 => absurd hk0 (by omega))

/-- Unfolding `reduceLoop` at a successor fuel value. -/
theorem reduceLoop_succ (fuel : Nat) (ps : List ReducedProfile) :
    reduceLoop (fuel + 1) ps =
      if (reducePass ps).2 then reduceLoop fuel (reducePass ps).1
      else some (reducePass ps).1 := rfl

/-- Whenever the `while(changed)` loop terminates, its result is
cross-profile prefix-free. -/
theorem reduceLoop_noCross : ∀ (fuel : Nat) (ps res : List ReducedProfile),
    reduceLoop fuel ps = some res → noCrossPfx res := by
  intro fuel
  induction fuel with
  | zero =>
    intro ps res hres
    exact absurd hres (by simp [reduceLoop])
  | succ fuel ih =>
    intro ps res hres
    rw [reduceLoop_succ] at hres
    cases hr : (reducePass ps).2 with
    | true =>
      rw [hr, if_pos rfl] at hres
      exact ih _ res hres
    | false =>
      rw [hr, if_neg (by decide)] at hres
      have h1 : (reducePass ps).1 = res := Option.some.inj hres
      have hp : reducePass ps = (res, false) := by
        rw [← h1, ← hr]
      exact reducePass_false_noCross ps res hp

/-- Claim C2 (amended): when `reduceIndexes` reaches its fixed point, no
candidate index of one query profile is a strict index-prefix of a candidate
of a *different* profile on the same collection — the prefix-absorption loop
only compares across profiles (`rhsQueryN != lhsQueryN`), so within a single
profile prefixes may survive (see the counterexample), and the "merged into
one shared object" reading of the claim also fails; what the fixed point
guarantees is exactly cross-profile prefix freeness. -/
theorem claim_C2_cross_prefix_free (fuel : Nat) (ps res : List ReducedProfile)
    (h : reduceIndexes fuel ps = some res) : noCrossPfx res :=
  reduceLoop_noCross fuel _ res h

/-- Witness for C2: two profiles on collection `c`, one holding `(x)` and the
other `(x, y)`; the loop replaces the first profile's `(x)` by `(x, y)` and
reaches a cross-profile prefix-free fixed point. -/
theorem claim_C2_cross_prefix_free_witness :
    reduceIndexes 3 [⟨"c", [c2ix]⟩, ⟨"c", [c2ixy]⟩] =
        some [⟨"c", [c2ixy]⟩, ⟨"c", [c2ixy]⟩] ∧
      noCrossPfx [⟨"c", [c2ixy]⟩, ⟨"c", [c2ixy]⟩] :=
  ⟨rfl, claim_C2_cross_prefix_free 3 [⟨"c", [c2ix]⟩, ⟨"c", [c2ixy]⟩]
    [⟨"c", [c2ixy]⟩, ⟨"c", [c2ixy]⟩] rfl⟩
